import Mathlib

/-!
Verification development for the CyberGrape pipeline sources.

Integers are modelled as `Nat`/`Int` with explicit bounds where the Rust
code checks them; `f32`/`f64` payloads are modelled as exact rationals
(`ℚ`) where the code computes with them, and as 32-bit bit patterns
(`Nat < 2^32`) where the code only moves their bytes.  Fallible code
returns explicit result types; a Rust `panic!` is a distinguished
constructor of those result types.
-/

namespace CyberGrape

/-! ## The nom parser model (src/hardware_message_decoder.rs)

A nom parser over `&str` either succeeds with a remaining input and a
value, fails with a recoverable error, or panics (Rust process abort).
-/

/-- Outcome of running a nom-style parser on an input. -/
inductive PResult (α : Type) where
  | ok (rest : List Char) (val : α)
  | fail
  | panic
deriving DecidableEq, Repr

/-- A parser consumes a prefix of the input character list. -/
abbrev Parser (α : Type) : Type := List Char → PResult α

/-- nom `map`: transform the value of a successful parse. -/
def pmap (f : α → β) (p : Parser α) : Parser β := fun s =>
  match p s with
  | .ok r v => .ok r (f v)
  | .fail => .fail
  | .panic => .panic

/-- Sequencing: run `p`, then run `q` on the rest (models nom `tuple`
application order, `preceded`, `delimited` by composition). -/
def pbind (p : Parser α) (q : α → Parser β) : Parser β := fun s =>
  match p s with
  | .ok r v => q v r
  | .fail => .fail
  | .panic => .panic

/-- nom `preceded`: run `p` for effect, keep `q`'s value. -/
def preceded (p : Parser α) (q : Parser β) : Parser β :=
  pbind p (fun _ => q)

/-- nom `alt` of two parsers: try the second only on a recoverable error.
A panic in the first branch aborts (Rust panics are not caught). -/
def altP (p q : Parser α) : Parser α := fun s =>
  match p s with
  | .fail => q s
  | r => r

/-- nom `char(c)`: consume exactly the character `c`. -/
def charP (c : Char) : Parser Char := fun s =>
  match s with
  | [] => .fail
  | c' :: r => if c' = c then .ok r c else .fail

/-- nom `tag(t)`: consume exactly the literal `t`. -/
def tagP (t : List Char) : Parser (List Char) := fun s =>
  if s.take t.length = t then .ok (s.drop t.length) t else .fail

/-- Character-class parser taking one or more matching characters
(models `hex_digit1`, and the digit run inside `u32`/`i32`). -/
def span1 (f : Char → Bool) : Parser (List Char) := fun s =>
  match s.takeWhile f with
  | [] => .fail
  | c :: run => .ok (s.dropWhile f) (c :: run)

/-- nom `alphanumeric0`: take zero or more ASCII alphanumerics. -/
def alphanumeric0 : Parser (List Char) := fun s =>
  .ok (s.dropWhile Char.isAlphanum) (s.takeWhile Char.isAlphanum)

/-- ASCII hex digit predicate (`char::is_ascii_hexdigit`). -/
def isHexDigitChar (c : Char) : Bool :=
  c.isDigit || ('a' ≤ c && c ≤ 'f') || ('A' ≤ c && c ≤ 'F')

/-- Numeric value of a decimal digit run (most significant first). -/
def digitsToNat (l : List Char) : Nat :=
  l.foldl (fun a c => a * 10 + (c.toNat - 48)) 0

/-- Numeric value of a hex digit run (most significant first). -/
def hexVal (c : Char) : Nat :=
  if c.isDigit then c.toNat - 48
  else if 'a' ≤ c && c ≤ 'f' then c.toNat - 87
  else c.toNat - 55

/-- Numeric value of a hex digit run (most significant first). -/
def hexToNat (l : List Char) : Nat :=
  l.foldl (fun a c => a * 16 + hexVal c) 0

/-- nom `character::complete::u32`: a nonempty decimal digit run whose
value fits in 32 bits; overflow is a recoverable parse error. -/
def u32P : Parser Nat := fun s =>
  match s.takeWhile Char.isDigit with
  | [] => .fail
  | c :: run =>
      let v := digitsToNat (c :: run)
      if v < 2 ^ 32 then .ok (s.dropWhile Char.isDigit) v else .fail

/-- The optional sign recognized at the front of nom's signed integer
parsers; consumes nothing when no sign is present. -/
def signP : Parser Bool := fun s =>
  match s with
  | [] => .ok [] false
  | c :: r =>
      if c = '-' then .ok r true
      else if c = '+' then .ok r false
      else .ok (c :: r) false

/-- The digit run of nom `i32` after the sign: nonempty, value checked
against the `i32` range (overflow is a recoverable parse error). -/
def digitsI32 (neg : Bool) : Parser Int := fun s =>
  match s.takeWhile Char.isDigit with
  | [] => .fail
  | c :: run =>
      let iv : Int :=
        cond neg (-(digitsToNat (c :: run) : Int)) (digitsToNat (c :: run) : Int)
      if -2147483648 ≤ iv ∧ iv ≤ 2147483647 then
        .ok (s.dropWhile Char.isDigit) iv
      else .fail

/-- nom `character::complete::i32`: an optional sign, then a nonempty
decimal digit run, value checked against the `i32` range. -/
def i32P : Parser Int := pbind signP digitsI32

/-- `parse_id`: one or more hex digits, converted with
`u64::from_str_radix(d, 16)` when the run has exactly 12 digits.  On any
other length the source calls `u64::from_str_radix("hey", 0)`; radix 0
is outside `[2, 36]`, so that call panics rather than returning `Err`. -/
def parse_id : Parser Nat := fun s =>
  match span1 isHexDigitChar s with
  | .ok rest run => if run.length = 12 then .ok rest (hexToNat run) else .panic
  | .fail => .fail
  | .panic => .panic

/-- `parse_quoted_id`: `parse_id` delimited by double quotes. -/
def parse_quoted_id : Parser Nat :=
  pbind (charP '\"') fun _ =>
  pbind parse_id fun v =>
  pmap (fun _ => v) (charP '\"')

/-- `parse_quoted_string`: `alphanumeric0` delimited by double quotes. -/
def parse_quoted_string : Parser (List Char) :=
  pbind (charP '\"') fun _ =>
  pbind alphanumeric0 fun v =>
  pmap (fun _ => v) (charP '\"')

/-- `UUDFEvent`: one measurement between a tag/antenna pair. -/
structure UUDFEvent where
  tag_id : Nat
  rssi : Int
  angle_1 : Int
  angle_2 : Int
  reserved : Int
  channel : Nat
  anchor_id : Nat
  user_defined : List Char
  timestamp : Nat
  sequence : Nat
deriving DecidableEq, Repr

/-- `UUDFPEvent`: a heartbeat carrying only the tag id. -/
structure UUDFPEvent where
  tag_id : Nat
deriving DecidableEq, Repr

/-- `HardwareEvent`: either kind of u-blox message. -/
inductive HardwareEvent where
  | UUDFEvent (e : UUDFEvent)
  | UUDFPEvent (e : UUDFPEvent)
deriving DecidableEq, Repr

/-- `parse_uudf_event`: the `+UUDF:` grammar, ten comma-separated fields
(nom `tuple` sequenced left to right, then `map` builds the record). -/
def parse_uudf_event : Parser UUDFEvent :=
  pbind (preceded (tagP ("+UUDF:".toList)) parse_id) fun tagId =>
  pbind (preceded (charP ',') i32P) fun rssi =>
  pbind (preceded (charP ',') i32P) fun angle1 =>
  pbind (preceded (charP ',') i32P) fun angle2 =>
  pbind (preceded (charP ',') i32P) fun reserved =>
  pbind (preceded (charP ',') u32P) fun channel =>
  pbind (preceded (charP ',') parse_quoted_id) fun anchorId =>
  pbind (preceded (charP ',') parse_quoted_string) fun userDefined =>
  pbind (preceded (charP ',') u32P) fun timestamp =>
  pmap (fun sequence =>
      { tag_id := tagId, rssi := rssi, angle_1 := angle1, angle_2 := angle2,
        reserved := reserved, channel := channel, anchor_id := anchorId,
        user_defined := userDefined, timestamp := timestamp,
        sequence := sequence })
    (preceded (charP ',') u32P)

/-- `parse_uudfp_event`: the `+UUDFP:` grammar, an id and a discarded hex
field. -/
def parse_uudfp_event : Parser UUDFPEvent :=
  pbind (preceded (tagP ("+UUDFP:".toList)) parse_id) fun tagId =>
  pmap (fun _ => ({ tag_id := tagId } : UUDFPEvent))
    (preceded (charP ',') (span1 isHexDigitChar))

/-- Result of a `FromStr::from_str` call: the remaining input is
discarded by `.finish()`. -/
inductive DResult (α : Type) where
  | ok (val : α)
  | err
  | panic
deriving DecidableEq, Repr

/-- Convert a parser outcome to a `from_str` outcome, dropping the rest. -/
def finishP : PResult α → DResult α
  | .ok _ v => .ok v
  | .fail => .err
  | .panic => .panic

/-- `HardwareEvent::from_str`: `alt` of the two grammars. -/
def HardwareEvent.from_str (s : List Char) : DResult HardwareEvent :=
  finishP (altP (pmap HardwareEvent.UUDFEvent parse_uudf_event)
    (pmap HardwareEvent.UUDFPEvent parse_uudfp_event) s)

/-- `UUDFEvent::from_str`. -/
def UUDFEvent.from_str (s : List Char) : DResult UUDFEvent :=
  finishP (parse_uudf_event s)

/-- `UUDFPEvent::from_str`. -/
def UUDFPEvent.from_str (s : List Char) : DResult UUDFPEvent :=
  finishP (parse_uudfp_event s)

/-- A parser only consumes: on success the rest is a suffix of the
input. -/
def Consumes (p : Parser α) : Prop :=
  ∀ s r v, p s = .ok r v → List.IsSuffix r s

/-- A parser that did not reach the end of its input parses the same
prefix when the input is extended. -/
def Stable (p : Parser α) : Prop :=
  ∀ s r v t, p s = .ok r v → r ≠ [] → p (s ++ t) = .ok (r ++ t) v

/-- A parser that consumed its whole input still succeeds with the same
value when bytes that cannot extend its final token (`bad` class) are
appended. -/
def StableEnd (bad : Char → Bool) (p : Parser α) : Prop :=
  ∀ s v t, p s = .ok [] v → (∀ c, t.head? = some c → bad c = false) →
    p (s ++ t) = .ok t v

/-- A parser that cannot succeed on empty input. -/
def NonNull (p : Parser α) : Prop :=
  ∀ r v, p [] ≠ .ok r v

/-! ## Updates and the Hdm buffer (src/hardware_data_manager.rs, src/hdm.rs)

`f64` angle payloads are modelled as exact rationals; `std::f64::consts::PI`
is the exact rational value of the `f64` constant. -/

/-- The exact rational value of the `f64` constant `std::f64::consts::PI`. -/
def pi64 : ℚ := 884279719003555 / 281474976710656

/-- `Update`: a radial measurement from `src` to `dst`. -/
structure Update where
  src : Nat
  dst : Nat
  elv : ℚ
  azm : ℚ
deriving DecidableEq, Repr

/-- `Hdm::add_update`'s conversion of a `UUDFEvent` into an `Update`:
`src = anchor_id`, `dst = tag_id`, angles scaled by `PI / 180`. -/
def updateOfEvent (e : UUDFEvent) : Update :=
  { src := e.anchor_id, dst := e.tag_id,
    azm := (e.angle_1 : ℚ) * (pi64 / 180),
    elv := (e.angle_2 : ℚ) * (pi64 / 180) }

/-- The `Hdm` buffer state: the mutex-guarded `VecDeque`, front first. -/
abbrev Hdm : Type := List Update

/-- `Hdm::add_update`: convert the event and `push_front` the result. -/
def Hdm.add_update (q : Hdm) (e : UUDFEvent) : Hdm :=
  updateOfEvent e :: q

/-- `<Hdm as Iterator>::next`: `pop_front` from the deque. -/
def Hdm.next (q : Hdm) : Option (Update × Hdm) :=
  match q with
  | [] => none
  | u :: r => some (u, r)

/-- Add a whole sequence of events, in order of arrival. -/
def Hdm.addAll (q : Hdm) (es : List UUDFEvent) : Hdm :=
  es.foldl Hdm.add_update q

/-- Repeatedly call `next` until the buffer is empty, collecting the
updates in the order they are yielded. -/
def Hdm.drain (q : Hdm) : List Update :=
  match q with
  | [] => []
  | u :: r => u :: Hdm.drain r

/-! ## The update accumulator (src/update_accumulator.rs)

The `HashMap<(Id, Id), VecDeque<Update>>` is modelled as an association
list in insertion order (the map holds one window per key; iteration
order of the Rust `HashMap` is arbitrary, the model fixes insertion
order).  Window deques are lists, oldest first. -/

/-- The accumulator's map from `(src, dst)` keys to update windows. -/
abbrev AccMap : Type := List ((Nat × Nat) × List Update)

/-- One step of `get_status`'s drain loop: insert one update into its
key's window (`push_back`), creating a fresh one-element window for a
vacant key. -/
def insertU (m : AccMap) (u : Update) : AccMap :=
  match m with
  | [] => [((u.src, u.dst), [u])]
  | (k, w) :: rest =>
      if k = (u.src, u.dst) then (k, w ++ [u]) :: rest
      else (k, w) :: insertU rest u

/-- Drain a batch of pending updates from the Hdm into the map. -/
def insertAll (m : AccMap) (us : List Update) : AccMap :=
  us.foldl insertU m

/-- The per-window summary built by `get_status`: iterate the window in
reverse (most recent first), `take(50)`, sum `azm`/`elv` with `reduce`
(whose accumulator keeps the first — most recent — element's other
fields), then divide by the taken length.  The Rust code evaluates
`v[0].clone()` eagerly inside `unwrap_or`, which panics (`none`) exactly
when the window is empty. -/
def statusEntry (w : List Update) : Option Update :=
  match w.reverse.take 50 with
  | [] => none
  | h :: t =>
      some { src := h.src, dst := h.dst,
             elv := (((h :: t).map Update.elv).sum) / ((h :: t).length : ℚ),
             azm := (((h :: t).map Update.azm).sum) / ((h :: t).length : ℚ) }

/-- The `Vec<Update>` returned by `get_status`, one summary per key;
`none` models a panic on some empty window (the panic interrupts the
iteration, so the whole result is lost). -/
def statusRes : AccMap → Option (List Update)
  | [] => some []
  | e :: m =>
      match statusEntry e.2, statusRes m with
      | some u, some l => some (u :: l)
      | _, _ => none

/-- The trimming pass at the end of `get_status`: windows longer than 50
drop their oldest `len - 50` entries. -/
def trimW (w : List Update) : List Update :=
  w.drop (w.length - 50)

/-- Trim every window in the map. -/
def trimM (m : AccMap) : AccMap :=
  m.map (fun e => (e.1, trimW e.2))

/-- `UpdateAccumulator::get_status`: drain the pending updates into the
map, compute the summaries, then trim the windows.  Returns the summary
vector (or `none` for a panic) and the post-call map. -/
def get_status (m : AccMap) (pending : List Update) :
    Option (List Update) × AccMap :=
  let m' := insertAll m pending
  (statusRes m', trimM m')

/-- The accumulator state reached from `new` after a sequence of
`get_status` calls, each draining one batch of pending updates. -/
def runAcc (batches : List (List Update)) : AccMap :=
  batches.foldl (fun m us => (get_status m us).2) []

/-! ## The sphericalizer (src/sphericalizer.rs)

`f32` arithmetic is modelled as exact rational arithmetic;
`std::f32::consts::PI` is the exact rational value of the `f32`
constant.  `Vec::sort_by` is a stable sort, and a stable sort is
uniquely determined by its comparator, so it is modelled by the stable
`List.insertionSort`. -/

/-- The exact rational value of the `f32` constant `std::f32::consts::PI`. -/
def pi32 : ℚ := 13176795 / 4194304

/-- `BACK_ANTENNA`: id of the base antenna. -/
def BACK_ANTENNA : Nat := 118875763481542

/-- `FRONT_ANTENNA`: id of the auxiliary antenna. -/
def FRONT_ANTENNA : Nat := 118875763481510

/-- One tag's spatial state for the binauraliser. -/
structure BufferMetadata where
  azimuth : ℚ
  elevation : ℚ
  range : ℚ
  gain : ℚ
deriving DecidableEq, Repr

/-- Rust `f32::clamp` for `lo ≤ hi`: at most `hi`, at least `lo`. -/
def clampQ (x lo hi : ℚ) : ℚ := max lo (min x hi)

/-- `Sphericalizer::scale_angle`: scale an angle from the antenna's
native `±1.22173` rad range linearly to `±π/2` and clamp at the bounds. -/
def scale_angle (azm : ℚ) : ℚ :=
  let pi_2 := pi32 / 2
  clampQ (azm * pi_2 / (122173 / 100000)) (-pi_2) pi_2

/-- The body of `Sphericalizer::query`'s per-pair closure after the two
antenna updates are found: scale both angles, reflect the azimuth when
the front antenna sees a positive azimuth, rotate by `-3π/2` and wrap
negative values by one turn. -/
def mkMetadata (back front : Update) (gain range : ℚ) : BufferMetadata :=
  let azimuth0 := scale_angle back.azm
  let elevation := scale_angle back.elv
  let azimuth1 := if front.azm > 0 then pi32 - azimuth0 else azimuth0
  let azimuth2 := azimuth1 - 3 / 2 * pi32
  let azimuth3 := if azimuth2 < 0 then azimuth2 + 2 * pi32 else azimuth2
  { azimuth := azimuth3, elevation := elevation, range := range, gain := gain }

/-- Rust `slice::chunks(2)`: consecutive pairs, last chunk possibly
shorter. -/
def chunks2 : List α → List (List α)
  | [] => []
  | [a] => [[a]]
  | a :: b :: r => [a, b] :: chunks2 r

/-- Process one pair: `find` the back and front antenna updates (the
source unwraps both with `.expect`, so a missing one panics — `none`). -/
def procPair (setting : ℚ × ℚ) (pair : List Update) : Option BufferMetadata := do
  let back ← pair.find? (fun u => u.src = BACK_ANTENNA)
  let front ← pair.find? (fun u => u.src = FRONT_ANTENNA)
  pure (mkMetadata back front setting.1 setting.2)

/-- Process the enumerated pairs against the tag settings; indexing
`self.tag_settings[i]` out of range also panics (`none`). -/
def queryPairs : List (ℚ × ℚ) → List (List Update) → Option (List BufferMetadata)
  | _, [] => some []
  | [], _ :: _ => none
  | t :: ts, p :: ps =>
      match procPair t p, queryPairs ts ps with
      | some m, some l => some (m :: l)
      | _, _ => none

/-- Outcome of `Sphericalizer::query` on one accumulator snapshot. -/
inductive QueryResult where
  | panic
  | notReady
  | ready (l : List BufferMetadata)
deriving DecidableEq, Repr

/-- `Sphericalizer::query`, applied to the snapshot `updates` returned
by `acc.get_status()`: not ready (`None`) unless the snapshot holds
exactly `2 × num_tags` updates; otherwise sort stably by `dst`, group
into pairs and build one `BufferMetadata` per pair. -/
def Sphericalizer.query (tag_settings : List (ℚ × ℚ)) (updates : List Update) :
    QueryResult :=
  if updates.length ≠ tag_settings.length * 2 then .notReady
  else
    match queryPairs tag_settings
        (chunks2 (updates.insertionSort (fun a b => a.dst ≤ b.dst))) with
    | some l => .ready l
    | none => .panic

/-! ## The GrapeFile spatial data format (src/spatial_data_format.rs)

The `f32` samples are modelled as 32-bit big-endian bit patterns
(`Nat < 2^32`) where the code only moves their bytes (`to_file` /
`from_file`), and as exact rationals where the code computes with them
(resampling).  `GrapeFile` is therefore polymorphic in the sample type,
exactly as the Rust code is uniform in it. -/

/-- The kind of spatial data in one stream. -/
inductive GrapeTag where
  | X | Y | Z | Azimuth | Elevation | Range | Pitch | Yaw | Roll
deriving DecidableEq, Repr

/-- Errors for reading, building or writing a `GrapeFile` (io variants
are out of scope of the byte-level model). -/
inductive GrapeFileError where
  | UnequalSampleBufferLengths
  | NoDelimiter
  | TryInto
  | RonSpannedError
deriving DecidableEq, Repr

/-- Outcome of a fallible `GrapeFile` operation (`Result` in the
source); `panic` models an uncaught Rust panic. -/
inductive FResult (α : Type) where
  | ok (val : α)
  | err (e : GrapeFileError)
  | panic
deriving DecidableEq, Repr

/-- The header of a `GrapeFile`. -/
structure GrapeFileHeader where
  n_streams : Nat
  sample_rate : Nat
  tags : List GrapeTag
deriving DecidableEq, Repr

/-- A `GrapeFile`: header plus interleaved samples. -/
structure GrapeFile (α : Type) where
  header : GrapeFileHeader
  samples : List α
deriving DecidableEq, Repr

/-- The builder: a sample rate and the added tagged streams in
insertion order. -/
structure GrapeFileBuilder (α : Type) where
  sample_rate : Nat
  streams : List (GrapeTag × List α)
deriving DecidableEq, Repr

/-- `GrapeFileBuilder::new`: no streams, default rate 1000. -/
def GrapeFileBuilder.new : GrapeFileBuilder α := ⟨1000, []⟩

/-- `GrapeFileBuilder::set_samplerate`. -/
def GrapeFileBuilder.set_samplerate (b : GrapeFileBuilder α) (r : Nat) :
    GrapeFileBuilder α := { b with sample_rate := r }

/-- `GrapeFileBuilder::add_stream`: push one tagged stream. -/
def GrapeFileBuilder.add_stream (b : GrapeFileBuilder α) (stream : List α)
    (tag : GrapeTag) : GrapeFileBuilder α :=
  { b with streams := b.streams ++ [(tag, stream)] }

/-- `Iterator::min` over a list of lengths. -/
def minLens : List Nat → Option Nat
  | [] => none
  | a :: r => some (r.foldl min a)

/-- `Iterator::max` over a list of lengths. -/
def maxLens : List Nat → Option Nat
  | [] => none
  | a :: r => some (r.foldl max a)

/-- `GrapeFileBuilder::build_truncate`: interleave the streams
round-robin up to the shortest length (the indexing `stream[sample_idx]`
is always in bounds, so `getD`'s default is never used). -/
def GrapeFileBuilder.build_truncate [Zero α] (b : GrapeFileBuilder α) :
    GrapeFile α :=
  let tags := b.streams.map Prod.fst
  let sample_vecs := b.streams.map Prod.snd
  let samples := match minLens (sample_vecs.map List.length) with
    | none => []
    | some m => (List.range m).flatMap (fun i => sample_vecs.map (fun v => v.getD i 0))
  { header := { n_streams := sample_vecs.length, sample_rate := b.sample_rate,
                tags := tags },
    samples := samples }

/-- `GrapeFileBuilder::build_extend`: interleave up to the longest
length, padding each exhausted stream with its last value (`0.0` for an
empty stream). -/
def GrapeFileBuilder.build_extend [Zero α] (b : GrapeFileBuilder α) :
    GrapeFile α :=
  let tags := b.streams.map Prod.fst
  let sample_vecs := b.streams.map Prod.snd
  let samples := match maxLens (sample_vecs.map List.length) with
    | none => []
    | some m =>
        let lasts := sample_vecs.map (fun v => v.getLastD 0)
        (List.range m).flatMap (fun i =>
          (sample_vecs.zip lasts).map (fun p => (p.1[i]?).getD p.2))
  { header := { n_streams := sample_vecs.length, sample_rate := b.sample_rate,
                tags := tags },
    samples := samples }

/-- `GrapeFileBuilder::build`: succeed via `build_truncate` when all
adjacent stream lengths agree (`windows(2)`), else fail. -/
def GrapeFileBuilder.build [Zero α] (b : GrapeFileBuilder α) :
    FResult (GrapeFile α) :=
  let lens := b.streams.map (fun p => p.2.length)
  if (lens.zip lens.tail).all (fun p => p.1 == p.2) then
    .ok b.build_truncate
  else
    .err .UnequalSampleBufferLengths

/-! ### Byte-level serialization (`to_file` / `from_file`)

`ron::ser::to_string` on the header produces the compact form
`(n_streams:A,sample_rate:B,tags:[C,D])`; the serializer and the
deserializer on that canonical form model the external `ron` crate. -/

/-- ASCII bytes of a string literal. -/
def strBytes (s : String) : List Nat := s.toList.map Char.toNat

/-- RON name of a `GrapeTag` unit variant. -/
def tagBytes : GrapeTag → List Nat
  | .X => strBytes "X"
  | .Y => strBytes "Y"
  | .Z => strBytes "Z"
  | .Azimuth => strBytes "Azimuth"
  | .Elevation => strBytes "Elevation"
  | .Range => strBytes "Range"
  | .Pitch => strBytes "Pitch"
  | .Yaw => strBytes "Yaw"
  | .Roll => strBytes "Roll"

/-- Decimal digits of `n`, least significant first; structural recursion
on a fuel bound (any `fuel ≥ n` computes the digits, see
`toDigitsRevAux_eq`). -/
def toDigitsRevAux : Nat → Nat → List Nat
  | 0, _ => []
  | fuel + 1, n => if n = 0 then [] else n % 10 :: toDigitsRevAux fuel (n / 10)

/-- Decimal digits of `n`, least significant first. -/
def toDigitsRev (n : Nat) : List Nat := toDigitsRevAux n n

/-- Decimal ASCII bytes of `n`, most significant first. -/
def natDecBytes (n : Nat) : List Nat :=
  if n = 0 then [48] else (toDigitsRev n).reverse.map (fun d => 48 + d)

/-- The serialized header bytes (`ron::ser::to_string(&header)`). -/
def serHeader (h : GrapeFileHeader) : List Nat :=
  strBytes "(n_streams:" ++ natDecBytes h.n_streams ++
  strBytes ",sample_rate:" ++ natDecBytes h.sample_rate ++
  strBytes ",tags:[" ++ List.intercalate [44] (h.tags.map tagBytes) ++
  strBytes "])"

/-- Big-endian bytes of one 32-bit sample (`f32::to_be_bytes` on the
bit pattern). -/
def be4 (n : Nat) : List Nat :=
  [n / 2 ^ 24 % 256, n / 2 ^ 16 % 256, n / 2 ^ 8 % 256, n % 256]

/-- `GrapeFile::to_file`: serialized header, the `0xFF` delimiter, then
the big-endian samples. -/
def GrapeFile.to_file (f : GrapeFile Nat) : List Nat :=
  serHeader f.header ++ [255] ++ f.samples.flatMap be4

/-- ASCII decimal digit byte. -/
def isDigitByte (b : Nat) : Bool := 48 ≤ b && b ≤ 57

/-- ASCII letter byte. -/
def isAlphaByte (b : Nat) : Bool := (65 ≤ b && b ≤ 90) || (97 ≤ b && b ≤ 122)

/-- Consume an exact literal. -/
def expectLit (lit l : List Nat) : Option (List Nat) :=
  if l.take lit.length = lit then some (l.drop lit.length) else none

/-- Parse a nonempty decimal run. -/
def parseNatB (l : List Nat) : Option (Nat × List Nat) :=
  match l.takeWhile isDigitByte with
  | [] => none
  | c :: run =>
      some ((c :: run).foldl (fun a b => a * 10 + (b - 48)) 0,
        l.dropWhile isDigitByte)

/-- Recognize one RON tag name. -/
def nameToTag (run : List Nat) : Option GrapeTag :=
  if run = tagBytes .X then some .X
  else if run = tagBytes .Y then some .Y
  else if run = tagBytes .Z then some .Z
  else if run = tagBytes .Azimuth then some .Azimuth
  else if run = tagBytes .Elevation then some .Elevation
  else if run = tagBytes .Range then some .Range
  else if run = tagBytes .Pitch then some .Pitch
  else if run = tagBytes .Yaw then some .Yaw
  else if run = tagBytes .Roll then some .Roll
  else none

/-- Recognize every comma-separated segment as a tag name (the
deserializer's collect over the list elements). -/
def tagsMapM : List (List Nat) → Option (List GrapeTag)
  | [] => some []
  | seg :: segs =>
      match nameToTag seg, tagsMapM segs with
      | some t, some ts => some (t :: ts)
      | _, _ => none

/-- Parse the comma-separated tag list up to the closing bracket. -/
def parseTags (l : List Nat) : Option (List GrapeTag × List Nat) :=
  let inner := l.takeWhile (fun b => b ≠ 93)
  match l.dropWhile (fun b => b ≠ 93) with
  | 93 :: r =>
      match (if inner.isEmpty then some [] else tagsMapM (inner.splitOn 44)) with
      | some ts => some (ts, r)
      | none => none
  | _ => none

/-- Parse the canonical serialized header (`ron::de::from_bytes`). -/
def headerParse (l : List Nat) : Option GrapeFileHeader := do
  let r1 ← expectLit (strBytes "(n_streams:") l
  let (n, r2) ← parseNatB r1
  let r3 ← expectLit (strBytes ",sample_rate:") r2
  let (sr, r4) ← parseNatB r3
  let r5 ← expectLit (strBytes ",tags:[") r4
  let (ts, r6) ← parseTags r5
  let r7 ← expectLit (strBytes ")") r6
  if r7.isEmpty then
    some { n_streams := n, sample_rate := sr, tags := ts }
  else none

/-- Reassemble the sample words from 4-byte chunks; a trailing chunk of
fewer than 4 bytes makes the slice indexing `bs[0..4]` panic (`none`). -/
def parseSamples : List Nat → Option (List Nat)
  | [] => some []
  | a :: b :: c :: d :: r =>
      (parseSamples r).map (fun l => (((a * 256 + b) * 256 + c) * 256 + d) :: l)
  | _ => none

/-- `GrapeFile::from_file`: split at the first `0xFF` byte, deserialize
the header from the prefix, then rebuild the samples from the suffix. -/
def GrapeFile.from_file (bs : List Nat) : FResult (GrapeFile Nat) :=
  match bs.dropWhile (fun b => b ≠ 255) with
  | [] => .err .NoDelimiter
  | _ :: sbuf =>
      match headerParse (bs.takeWhile (fun b => b ≠ 255)) with
      | none => .err .RonSpannedError
      | some h =>
          match parseSamples sbuf with
          | none => .panic
          | some samples => .ok ⟨h, samples⟩

/-! ### Resampling (`streams_with_sample_rate`) -/

/-- `Iterator::step_by(n)` (n ≥ 1 wherever the source calls it): keep
exactly the elements whose position is a multiple of `n`, which is what
`step_by(n)` yields. -/
def stepBy (n : Nat) (l : List α) : List α :=
  (l.enum.filter (fun p => p.1 % n = 0)).map Prod.snd

/-- `GrapeFile::get_raw_streams`: de-interleave the samples into
`n_streams` streams (`skip(i).step_by(n_streams)`). -/
def GrapeFile.get_raw_streams (f : GrapeFile α) : List (List α) :=
  (List.range f.header.n_streams).map
    (fun i => stepBy f.header.n_streams (f.samples.drop i))

/-- `GrapeFile::attach_tags`: zip tags with streams (the source asserts
the lengths agree; callers always pass `n_streams` streams and the
header's tags). -/
def attach_tags (tags : List GrapeTag) (samples : List (List α)) :
    List (GrapeTag × List α) :=
  tags.zip samples

/-- `GrapeFile::streams_native_sample_rate`. -/
def GrapeFile.streams_native_sample_rate (f : GrapeFile α) :
    Nat × List (GrapeTag × List α) :=
  (f.header.sample_rate, attach_tags f.header.tags f.get_raw_streams)

/-- `slice::windows(2)` as consecutive pairs. -/
def windows2 : List α → List (α × α)
  | a :: b :: r => (a, b) :: windows2 (b :: r)
  | _ => []

/-- `GrapeFile::streams_interpolated`: for each consecutive pair emit
`samples_per_pt` linearly interpolated points (the final sample has no
successor and is not emitted). -/
def GrapeFile.streams_interpolated (f : GrapeFile ℚ) (sample_rate : Nat) :
    List (GrapeTag × List ℚ) :=
  let samples_per_pt := sample_rate / f.header.sample_rate
  attach_tags f.header.tags
    (f.get_raw_streams.map (fun v =>
      (windows2 v).flatMap (fun w =>
        let step := (w.2 - w.1) / (samples_per_pt : ℚ)
        (List.range samples_per_pt).map (fun (i : Nat) => w.1 + (i : ℚ) * step))))

/-- `slice::chunks(k)` (k ≥ 1 wherever the source calls it): take
groups of `k`, last group possibly shorter; structural recursion on a
fuel bound (any `fuel ≥ l.length` computes the chunks). -/
def chunksAux : Nat → Nat → List α → List (List α)
  | 0, _, _ => []
  | _, _, [] => []
  | fuel + 1, k, a :: r => (a :: r).take k :: chunksAux fuel k ((a :: r).drop k)

/-- `slice::chunks(k)`. -/
def chunksK (k : Nat) (l : List α) : List (List α) := chunksAux l.length k l

/-- `GrapeFile::streams_quantized`: mean of each chunk of
`pts_per_sample` points. -/
def GrapeFile.streams_quantized (f : GrapeFile ℚ) (sample_rate : Nat) :
    List (GrapeTag × List ℚ) :=
  let pts_per_sample := f.header.sample_rate / sample_rate
  attach_tags f.header.tags
    (f.get_raw_streams.map (fun v =>
      (chunksK pts_per_sample v).map (fun c => c.sum / (c.length : ℚ))))

/-- `GrapeFile::streams_with_sample_rate`: dispatch on the comparison
with the native rate. -/
def GrapeFile.streams_with_sample_rate (f : GrapeFile ℚ) (sample_rate : Nat) :
    List (GrapeTag × List ℚ) :=
  if sample_rate = f.header.sample_rate then f.streams_native_sample_rate.2
  else if sample_rate < f.header.sample_rate then f.streams_quantized sample_rate
  else f.streams_interpolated sample_rate

/-! ## Supporting lemmas -/

/-- Pushing a batch of events prepends their updates in reverse order. -/
theorem Hdm.addAll_eq (q : Hdm) (es : List UUDFEvent) :
    Hdm.addAll q es = (es.map updateOfEvent).reverse ++ q := by
  induction es generalizing q with
  | nil => simp [Hdm.addAll]
  | cons e es ih =>
      simp [Hdm.addAll, List.foldl_cons] at ih ⊢
      rw [ih (Hdm.add_update q e)]
      simp [Hdm.add_update]

/-- Draining pops the whole deque front to back. -/
theorem Hdm.drain_eq (q : Hdm) : Hdm.drain q = q := by
  induction q with
  | nil => rfl
  | cons u r ih => simp [Hdm.drain, ih]

/-- `windows(2).all(|w| w[0] == w[1])` checks exactly that all list
elements are equal. -/
theorem adj_all_iff : ∀ l : List Nat,
    ((l.zip l.tail).all (fun p => p.1 == p.2) = true) ↔ ∀ a ∈ l, ∀ b ∈ l, a = b
  | [] => by simp
  | [a] => by simp
  | a :: b :: r => by
      have ih := adj_all_iff (b :: r)
      simp only [List.tail_cons, List.zip_cons_cons, List.all_cons, beq_iff_eq,
        Bool.and_eq_true] at ih ⊢
      constructor
      · rintro ⟨hab, hrest⟩
        have hall := ih.mp hrest
        have hb : ∀ x ∈ a :: b :: r, x = b := by
          intro x hx
          rcases List.mem_cons.mp hx with hx | hx
          · exact hx ▸ hab
          · exact hall x hx b (by simp)
        intro x hx y hy
        rw [hb x hx, hb y hy]
      · intro h
        refine ⟨h a (by simp) b (by simp), ih.mpr ?_⟩
        intro x hx y hy
        exact h x (List.mem_cons_of_mem a hx) y (List.mem_cons_of_mem a hy)

/-- Folding `min` over a list of equal values returns that value. -/
theorem foldl_min_const (a : Nat) : ∀ xs : List Nat, (∀ b ∈ xs, b = a) →
    xs.foldl min a = a
  | [], _ => rfl
  | x :: xs, h => by
      have hx := h x (by simp)
      subst hx
      rw [List.foldl_cons, min_self]
      exact foldl_min_const x xs (fun b hb => h b (by simp [hb]))

/-- Element `i * n + j` of a flattened list of blocks of equal length
`n` is element `j` of block `i`. -/
theorem flatten_getElem_fixed (n : Nat) :
    ∀ (blocks : List (List α)) (_ : ∀ b ∈ blocks, b.length = n)
      (i j : Nat) (_ : j < n),
      blocks.flatten[i * n + j]? = blocks[i]?.bind (fun b => b[j]?)
  | [], _, i, j, _ => by simp
  | bl :: rest, hb, 0, j, hj => by
      have hbl : bl.length = n := hb bl (by simp)
      simp only [List.flatten_cons, Nat.zero_mul, Nat.zero_add]
      rw [List.getElem?_append, if_pos (show j < bl.length by omega)]
      simp
  | bl :: rest, hb, i + 1, j, hj => by
      have hbl : bl.length = n := hb bl (by simp)
      have hidx : (i + 1) * n + j = bl.length + (i * n + j) := by
        rw [hbl]; ring
      simp only [List.flatten_cons, hidx]
      rw [List.getElem?_append, if_neg (by omega)]
      have heq : bl.length + (i * n + j) - bl.length = i * n + j := by omega
      rw [heq, flatten_getElem_fixed n rest (fun b hbm => hb b (by simp [hbm])) i j hj]
      simp

/-- The length of a `flatMap` whose blocks all have length `s`. -/
theorem flatMap_length_fixed (f : α → List β) (s : Nat)
    (h : ∀ x, (f x).length = s) : ∀ l : List α, (l.flatMap f).length = l.length * s
  | [] => by simp
  | a :: l => by
      simp only [List.flatMap_cons, List.length_append, h a,
        flatMap_length_fixed f s h l, List.length_cons]
      ring

/-- Inserting an update never creates an empty window. -/
theorem insertU_ne_nil {m : AccMap} {u : Update} (h : ∀ e ∈ m, e.2 ≠ []) :
    ∀ e ∈ insertU m u, e.2 ≠ [] := by
  induction m with
  | nil => simp [insertU]
  | cons hd m ih =>
      intro e he
      rw [insertU] at he
      by_cases hk : hd.1 = (u.src, u.dst)
      · simp only [hk, if_pos rfl] at he
        rcases List.mem_cons.mp he with he | he
        · subst he; simp
        · exact h e (by simp [he])
      · simp only [if_neg hk] at he
        rcases List.mem_cons.mp he with he | he
        · subst he; exact h hd (by simp)
        · exact ih (fun e' he' => h e' (by simp [he'])) e he

/-- Draining a batch never creates an empty window. -/
theorem insertAll_ne_nil {us : List Update} :
    ∀ {m : AccMap}, (∀ e ∈ m, e.2 ≠ []) → ∀ e ∈ insertAll m us, e.2 ≠ [] := by
  induction us with
  | nil => intro m h; simpa [insertAll] using h
  | cons u us ih =>
      intro m h
      rw [insertAll, List.foldl_cons]
      exact ih (insertU_ne_nil h)

/-- Trimming keeps a window nonempty. -/
theorem trimW_ne_nil {w : List Update} (h : w ≠ []) : trimW w ≠ [] := by
  have hl : 0 < w.length := List.length_pos.mpr h
  have : (trimW w).length = w.length - (w.length - 50) := by
    simp [trimW, List.length_drop]
  intro hnil
  rw [hnil] at this
  simp at this
  omega

/-- Trimming keeps every window nonempty. -/
theorem trimM_ne_nil {m : AccMap} (h : ∀ e ∈ m, e.2 ≠ []) :
    ∀ e ∈ trimM m, e.2 ≠ [] := by
  intro e he
  rcases List.mem_map.mp he with ⟨e', he', rfl⟩
  exact trimW_ne_nil (h e' he')

/-- A nonempty window summarizes without panicking. -/
theorem statusEntry_isSome {w : List Update} (h : w ≠ []) :
    (statusEntry w).isSome = true := by
  have : w.reverse.take 50 ≠ [] := by
    simp [List.take_eq_nil_iff, h]
  rcases he : w.reverse.take 50 with _ | ⟨hd, t⟩
  · exact absurd he this
  · simp [statusEntry, he]

/-- A map of nonempty windows summarizes without panicking. -/
theorem statusRes_isSome : ∀ {m : AccMap}, (∀ e ∈ m, e.2 ≠ []) →
    (statusRes m).isSome = true
  | [], _ => rfl
  | e :: m, h => by
      have h1 := statusEntry_isSome (h e (by simp))
      have h2 := @statusRes_isSome m
        (fun e' he' => h e' (List.mem_cons_of_mem e he'))
      rcases he1 : statusEntry e.2 with _ | u
      · rw [he1] at h1; simp at h1
      · rcases he2 : statusRes m with _ | l
        · rw [he2] at h2; simp at h2
        · simp [statusRes, he1, he2]

/-- Every window of a reachable accumulator state is nonempty. -/
theorem runAcc_ne_nil (batches : List (List Update)) :
    ∀ e ∈ runAcc batches, e.2 ≠ [] := by
  suffices h : ∀ (bs : List (List Update)) (m : AccMap), (∀ e ∈ m, e.2 ≠ []) →
      ∀ e ∈ bs.foldl (fun m us => (get_status m us).2) m, e.2 ≠ [] by
    exact h batches [] (by simp)
  intro bs
  induction bs with
  | nil => intro m h; simpa using h
  | cons us bs ih =>
      intro m h
      rw [List.foldl_cons]
      exact ih _ (trimM_ne_nil (insertAll_ne_nil h))

/-- Inserting updates that all share the key `k` into a single-window
map for `k` appends them to that window in arrival order. -/
theorem insertAll_single (k : Nat × Nat) : ∀ (us : List Update) (w : List Update),
    (∀ u ∈ us, (u.src, u.dst) = k) → insertAll [(k, w)] us = [(k, w ++ us)]
  | [], w, _ => by simp [insertAll]
  | u :: us, w, h => by
      have hk := h u (by simp)
      rw [insertAll, List.foldl_cons]
      have hins : insertU [(k, w)] u = [(k, w ++ [u])] := by
        simp [insertU, hk.symm]
      rw [hins]
      have := insertAll_single k us (w ++ [u]) (fun u' hu' => h u' (by simp [hu']))
      rw [insertAll] at this
      rw [this]
      simp

/-! ### Parser stability lemmas (for the trailing-garbage claim) -/

/-- Inversion for `pbind`. -/
theorem pbind_ok {p : Parser α} {q : α → Parser β} {s r v}
    (h : pbind p q s = .ok r v) :
    ∃ r₁ a, p s = .ok r₁ a ∧ q a r₁ = .ok r v := by
  unfold pbind at h
  rcases hp : p s with ⟨r₁, a⟩ | _ | _ <;> rw [hp] at h
  · exact ⟨r₁, a, rfl, h⟩
  · exact absurd h (by simp)
  · exact absurd h (by simp)

/-- Inversion for `pmap`. -/
theorem pmap_ok {f : α → β} {p : Parser α} {s r v}
    (h : pmap f p s = .ok r v) : ∃ a, p s = .ok r a ∧ v = f a := by
  unfold pmap at h
  rcases hp : p s with ⟨r₁, a⟩ | _ | _ <;> rw [hp] at h
  · rcases h with ⟨⟩
    exact ⟨a, rfl, rfl⟩
  · exact absurd h (by simp)
  · exact absurd h (by simp)

/-- Inversion for `charP`. -/
theorem charP_ok {c : Char} {s r v} (h : charP c s = .ok r v) :
    s = c :: r ∧ v = c := by
  rcases s with _ | ⟨c', s'⟩
  · exact absurd h (by simp [charP])
  · simp only [charP] at h
    split at h
    · rcases h with ⟨⟩
      rename_i hc
      exact ⟨by rw [hc], rfl⟩
    · exact absurd h (by simp)

/-- Inversion for `tagP`. -/
theorem tagP_ok {t : List Char} {s r v} (h : tagP t s = .ok r v) :
    s.take t.length = t ∧ r = s.drop t.length ∧ v = t := by
  unfold tagP at h
  split at h
  · rcases h with ⟨⟩
    exact ⟨by assumption, rfl, rfl⟩
  · exact absurd h (by simp)

/-- Inversion for `span1`. -/
theorem span1_ok {f : Char → Bool} {s r v} (h : span1 f s = .ok r v) :
    s.takeWhile f = v ∧ s.dropWhile f = r ∧ v ≠ [] := by
  unfold span1 at h
  rcases htw : s.takeWhile f with _ | ⟨c, run⟩ <;> rw [htw] at h
  · exact absurd h (by simp)
  · rcases h with ⟨⟩
    exact ⟨rfl, rfl, by simp⟩

/-- Extending the input does not change a span that stopped inside it. -/
theorem span_append_stable {α : Type} (f : α → Bool) : ∀ (s t : List α),
    s.dropWhile f ≠ [] →
    (s ++ t).takeWhile f = s.takeWhile f ∧
    (s ++ t).dropWhile f = s.dropWhile f ++ t
  | [], _, h => absurd rfl h
  | c :: s', t, h => by
      rcases hfc : f c with _ | _
      · simp [List.takeWhile_cons, List.dropWhile_cons, hfc]
      · rw [List.dropWhile_cons, if_pos hfc] at h
        have ih := span_append_stable f s' t h
        simp [List.takeWhile_cons, List.dropWhile_cons, hfc, ih.1, ih.2]

/-- A span that consumed its whole input continues into the extension. -/
theorem span_append_all {α : Type} (f : α → Bool) : ∀ (s t : List α),
    s.dropWhile f = [] →
    (s ++ t).takeWhile f = s ++ t.takeWhile f ∧
    (s ++ t).dropWhile f = t.dropWhile f
  | [], t, _ => by simp
  | c :: s', t, h => by
      rcases hfc : f c with _ | _
      · rw [List.dropWhile_cons, if_neg (by simp [hfc])] at h
        exact absurd h (by simp)
      · rw [List.dropWhile_cons, if_pos hfc] at h
        have ih := span_append_all f s' t h
        simp [List.takeWhile_cons, List.dropWhile_cons, hfc, ih.1, ih.2]

/-- A span that consumed its whole input is unchanged by an extension
whose first character is outside the class. -/
theorem span_append_end {α : Type} (f : α → Bool) (s t : List α)
    (h : s.dropWhile f = []) (ht : ∀ c, t.head? = some c → f c = false) :
    (s ++ t).takeWhile f = s ∧ (s ++ t).dropWhile f = t := by
  obtain ⟨h1, h2⟩ := span_append_all f s t h
  have htw : t.takeWhile f = [] ∧ t.dropWhile f = t := by
    rcases t with _ | ⟨c, t'⟩
    · exact ⟨rfl, rfl⟩
    · have hc := ht c rfl
      rw [List.takeWhile_cons, List.dropWhile_cons, if_neg (by simp [hc]),
        if_neg (by simp [hc])]
      exact ⟨rfl, rfl⟩
  refine ⟨?_, ?_⟩
  · rw [h1, htw.1, List.append_nil]
  · rw [h2, htw.2]

/-- `Consumes` for the combinators and atoms. -/
theorem consumes_pbind {p : Parser α} {q : α → Parser β}
    (hp : Consumes p) (hq : ∀ a, Consumes (q a)) : Consumes (pbind p q) := by
  intro s r v h
  obtain ⟨r₁, a, h1, h2⟩ := pbind_ok h
  exact (hq a r₁ r v h2).trans (hp s r₁ a h1)

/-- `Consumes` is preserved by `pmap`. -/
theorem consumes_pmap {f : α → β} {p : Parser α} (hp : Consumes p) :
    Consumes (pmap f p) := by
  intro s r v h
  obtain ⟨a, h1, _⟩ := pmap_ok h
  exact hp s r a h1

/-- `charP` consumes. -/
theorem consumes_charP (c : Char) : Consumes (charP c) := by
  intro s r v h
  obtain ⟨rfl, _⟩ := charP_ok h
  exact ⟨[c], rfl⟩

/-- `tagP` consumes. -/
theorem consumes_tagP (t : List Char) : Consumes (tagP t) := by
  intro s r v h
  obtain ⟨_, rfl, _⟩ := tagP_ok h
  exact List.drop_suffix _ _

/-- `span1` consumes. -/
theorem consumes_span1 (f : Char → Bool) : Consumes (span1 f) := by
  intro s r v h
  obtain ⟨_, h2, _⟩ := span1_ok h
  exact h2 ▸ List.dropWhile_suffix f

/-- `alphanumeric0` consumes. -/
theorem consumes_alphanumeric0 : Consumes alphanumeric0 := by
  intro s r v h
  unfold alphanumeric0 at h
  rcases h with ⟨⟩
  exact List.dropWhile_suffix _

/-- `Stable` composes over `pbind`. -/
theorem stable_pbind {p : Parser α} {q : α → Parser β}
    (hp : Stable p) (hqs : ∀ a, Stable (q a)) (hqc : ∀ a, Consumes (q a)) :
    Stable (pbind p q) := by
  intro s r v t h hr
  obtain ⟨r₁, a, h1, h2⟩ := pbind_ok h
  have hr₁ : r₁ ≠ [] := by
    intro hnil
    obtain ⟨w, hw⟩ := hqc a r₁ r v h2
    rw [hnil] at hw
    simp at hw
    exact hr hw.2
  have h1' := hp s r₁ a t h1 hr₁
  have h2' := hqs a r₁ r v t h2 hr
  unfold pbind
  rw [h1']
  exact h2'

/-- `Stable` is preserved by `pmap`. -/
theorem stable_pmap {f : α → β} {p : Parser α} (hp : Stable p) :
    Stable (pmap f p) := by
  intro s r v t h hr
  obtain ⟨a, h1, rfl⟩ := pmap_ok h
  unfold pmap
  rw [hp s r a t h1 hr]

/-- `charP` is stable under extension. -/
theorem stable_charP (c : Char) : Stable (charP c) := by
  intro s r v t h _
  obtain ⟨rfl, rfl⟩ := charP_ok h
  simp [charP]

/-- `tagP` is stable under extension. -/
theorem stable_tagP (tl : List Char) : Stable (tagP tl) := by
  intro s r v t h _
  obtain ⟨h1, h2, h3⟩ := tagP_ok h
  subst h2
  rw [h3]
  have hlen : tl.length ≤ s.length := by
    by_contra hgt
    push_neg at hgt
    have := congrArg List.length h1
    rw [List.length_take] at this
    omega
  unfold tagP
  rw [List.take_append_of_le_length hlen, if_pos h1,
    List.drop_append_of_le_length hlen]

/-- `span1` is stable under extension when it stopped inside the
input. -/
theorem stable_span1 (f : Char → Bool) : Stable (span1 f) := by
  intro s r v t h hr
  obtain ⟨h1, h2, hv⟩ := span1_ok h
  obtain ⟨ht, hd⟩ := span_append_stable f s t (by rw [h2]; exact hr)
  unfold span1
  rcases hvs : v with _ | ⟨c, run⟩
  · exact absurd hvs hv
  · rw [ht, h1, hvs, hd, h2]

/-- `alphanumeric0` is stable under extension when it stopped inside
the input. -/
theorem stable_alphanumeric0 : Stable alphanumeric0 := by
  intro s r v t h hr
  unfold alphanumeric0 at h ⊢
  rcases h with ⟨⟩
  obtain ⟨ht, hd⟩ := span_append_stable _ s t hr
  rw [ht, hd]

/-- `parse_id` is stable under extension. -/
theorem stable_parse_id : Stable parse_id := by
  intro s r v t h hr
  unfold parse_id at h ⊢
  rcases hsp : span1 isHexDigitChar s with ⟨r₁, run⟩ | _ | _ <;>
    simp only [hsp] at h
  · by_cases hlen : run.length = 12
    · rw [if_pos hlen] at h
      rcases h with ⟨⟩
      rw [stable_span1 isHexDigitChar s r run t hsp hr]
      simp only [if_pos hlen]
    · rw [if_neg hlen] at h
      exact absurd h (by simp)
  · exact absurd h (by simp)
  · exact absurd h (by simp)

/-- `StableEnd` composes over `pbind` when the tail parser cannot accept
empty input. -/
theorem stableEnd_pbind {bad : Char → Bool} {p : Parser α} {q : α → Parser β}
    (hp : Stable p) (hq : ∀ a, StableEnd bad (q a)) (hn : ∀ a, NonNull (q a)) :
    StableEnd bad (pbind p q) := by
  intro s v t h ht
  obtain ⟨r₁, a, h1, h2⟩ := pbind_ok h
  have hr₁ : r₁ ≠ [] := by
    intro hnil
    rw [hnil] at h2
    exact hn a [] v h2
  have h1' := hp s r₁ a t h1 hr₁
  have h2' := hq a r₁ v t h2 ht
  unfold pbind
  rw [h1']
  exact h2'

/-- `StableEnd` is preserved by `pmap`. -/
theorem stableEnd_pmap {bad : Char → Bool} {f : α → β} {p : Parser α}
    (hp : StableEnd bad p) : StableEnd bad (pmap f p) := by
  intro s v t h ht
  obtain ⟨a, h1, rfl⟩ := pmap_ok h
  unfold pmap
  rw [hp s a t h1 ht]

/-- `NonNull` for `charP` and its compositions. -/
theorem nonNull_charP (c : Char) : NonNull (charP c) := by
  intro r v h
  exact absurd h (by simp [charP])

/-- A sequence starting with a non-null parser is non-null. -/
theorem nonNull_pbind {p : Parser α} {q : α → Parser β} (hp : NonNull p) :
    NonNull (pbind p q) := by
  intro r v h
  obtain ⟨r₁, a, h1, _⟩ := pbind_ok h
  exact hp r₁ a h1

/-- `NonNull` is preserved by `pmap`. -/
theorem nonNull_pmap {f : α → β} {p : Parser α} (hp : NonNull p) :
    NonNull (pmap f p) := by
  intro r v h
  obtain ⟨a, h1, _⟩ := pmap_ok h
  exact hp r a h1

/-- `u32P` consumes. -/
theorem consumes_u32P : Consumes u32P := by
  intro s r v h
  unfold u32P at h
  rcases htw : s.takeWhile Char.isDigit with _ | ⟨c, run⟩ <;>
    simp only [htw] at h
  · exact absurd h (by simp)
  · by_cases hv : digitsToNat (c :: run) < 2 ^ 32
    · rw [if_pos hv] at h
      rcases h with ⟨⟩
      exact List.dropWhile_suffix _
    · rw [if_neg hv] at h
      exact absurd h (by simp)

/-- `u32P` is stable under extension when it stopped inside the input. -/
theorem stable_u32P : Stable u32P := by
  intro s r v t h hr
  unfold u32P at h ⊢
  rcases htw : s.takeWhile Char.isDigit with _ | ⟨c, run⟩ <;>
    simp only [htw] at h
  · exact absurd h (by simp)
  · by_cases hv : digitsToNat (c :: run) < 2 ^ 32
    · rw [if_pos hv] at h
      rcases h with ⟨⟩
      obtain ⟨ht, hd⟩ := span_append_stable Char.isDigit s t hr
      rw [ht, htw, hd]
      simp only [if_pos hv]
    · rw [if_neg hv] at h
      exact absurd h (by simp)

/-- `u32P` accepts a non-digit-initial extension after consuming all its
input. -/
theorem stableEnd_u32P : StableEnd Char.isDigit u32P := by
  intro s v t h ht
  unfold u32P at h ⊢
  rcases htw : s.takeWhile Char.isDigit with _ | ⟨c, run⟩ <;>
    simp only [htw] at h
  · exact absurd h (by simp)
  · by_cases hv : digitsToNat (c :: run) < 2 ^ 32
    · rw [if_pos hv] at h
      injection h with h1 h2
      obtain ⟨ht', hd'⟩ := span_append_end Char.isDigit s t h1 ht
      have hs : s.takeWhile Char.isDigit = s := by
        have hsplit : s.takeWhile Char.isDigit ++ s.dropWhile Char.isDigit = s :=
          List.takeWhile_append_dropWhile Char.isDigit s
        rw [h1] at hsplit
        simpa using hsplit
      rw [ht', hd', ← hs, htw]
      simp only [if_pos hv]
      rw [h2]
    · rw [if_neg hv] at h
      exact absurd h (by simp)

/-- `u32P` rejects empty input. -/
theorem nonNull_u32P : NonNull u32P := by
  intro r v h
  exact absurd h (by simp [u32P])

/-- `signP` consumes. -/
theorem consumes_signP : Consumes signP := by
  intro s r v h
  rcases s with _ | ⟨c, s₀⟩
  · simp only [signP] at h
    rcases h with ⟨⟩
    exact ⟨[], rfl⟩
  · simp only [signP] at h
    split at h
    · rcases h with ⟨⟩
      exact ⟨[c], rfl⟩
    · split at h
      · rcases h with ⟨⟩
        exact ⟨[c], rfl⟩
      · rcases h with ⟨⟩
        exact ⟨[], rfl⟩

/-- `signP` is stable under extension when its rest is nonempty. -/
theorem stable_signP : Stable signP := by
  intro s r v t h hr
  rcases s with _ | ⟨c, s₀⟩
  · simp only [signP] at h
    rcases h with ⟨⟩
    exact absurd rfl hr
  · simp only [signP] at h ⊢
    split at h <;> rename_i hc1
    · rcases h with ⟨⟩
      simp only [List.cons_append, signP, if_pos hc1]
    · split at h <;> rename_i hc2
      · rcases h with ⟨⟩
        simp only [List.cons_append, signP, if_neg hc1, if_pos hc2]
      · rcases h with ⟨⟩
        simp only [List.cons_append, signP, if_neg hc1, if_neg hc2]

/-- `digitsI32` consumes. -/
theorem consumes_digitsI32 (neg : Bool) : Consumes (digitsI32 neg) := by
  intro s r v h
  unfold digitsI32 at h
  rcases htw : s.takeWhile Char.isDigit with _ | ⟨c, run⟩ <;>
    cases neg <;> simp only [htw, cond] at h
  · exact absurd h (by simp)
  · exact absurd h (by simp)
  all_goals
    split at h
    · rcases h with ⟨⟩
      exact List.dropWhile_suffix _
    · exact absurd h (by simp)

/-- `digitsI32` is stable under extension when it stopped inside the
input. -/
theorem stable_digitsI32 (neg : Bool) : Stable (digitsI32 neg) := by
  intro s r v t h hr
  unfold digitsI32 at h ⊢
  rcases htw : s.takeWhile Char.isDigit with _ | ⟨c, run⟩ <;>
    cases neg <;> simp only [htw, cond] at h ⊢
  · exact absurd h (by simp)
  · exact absurd h (by simp)
  all_goals
    split at h <;> rename_i hv
    · rcases h with ⟨⟩
      obtain ⟨ht, hd⟩ := span_append_stable Char.isDigit s t hr
      rw [ht, htw, hd]
      simp only [if_pos hv]
    · exact absurd h (by simp)

/-- `i32P` consumes. -/
theorem consumes_i32P : Consumes i32P :=
  consumes_pbind consumes_signP consumes_digitsI32

/-- `i32P` is stable under extension. -/
theorem stable_i32P : Stable i32P :=
  stable_pbind stable_signP stable_digitsI32 consumes_digitsI32

/-- `parse_id` consumes. -/
theorem consumes_parse_id : Consumes parse_id := by
  intro s r v h
  unfold parse_id at h
  rcases hsp : span1 isHexDigitChar s with ⟨r₁, run⟩ | _ | _ <;>
    simp only [hsp] at h
  · split at h
    · rcases h with ⟨⟩
      exact consumes_span1 _ s r run hsp
    · exact absurd h (by simp)
  · exact absurd h (by simp)
  · exact absurd h (by simp)

/-- `parse_quoted_id` consumes. -/
theorem consumes_parse_quoted_id : Consumes parse_quoted_id :=
  consumes_pbind (consumes_charP _) (fun _ =>
    consumes_pbind consumes_parse_id (fun _ => consumes_pmap (consumes_charP _)))

/-- `parse_quoted_id` is stable under extension. -/
theorem stable_parse_quoted_id : Stable parse_quoted_id :=
  stable_pbind (stable_charP _)
    (fun _ => stable_pbind stable_parse_id
      (fun _ => stable_pmap (stable_charP _))
      (fun _ => consumes_pmap (consumes_charP _)))
    (fun _ => consumes_pbind consumes_parse_id
      (fun _ => consumes_pmap (consumes_charP _)))

/-- `parse_quoted_string` consumes. -/
theorem consumes_parse_quoted_string : Consumes parse_quoted_string :=
  consumes_pbind (consumes_charP _) (fun _ =>
    consumes_pbind consumes_alphanumeric0 (fun _ => consumes_pmap (consumes_charP _)))

/-- `parse_quoted_string` is stable under extension. -/
theorem stable_parse_quoted_string : Stable parse_quoted_string :=
  stable_pbind (stable_charP _)
    (fun _ => stable_pbind stable_alphanumeric0
      (fun _ => stable_pmap (stable_charP _))
      (fun _ => consumes_pmap (consumes_charP _)))
    (fun _ => consumes_pbind consumes_alphanumeric0
      (fun _ => consumes_pmap (consumes_charP _)))

/-- A comma-prefixed field rejects empty input. -/
theorem nonNull_comma_field {β : Type} (p : Parser β) :
    NonNull (preceded (charP ',') p) :=
  nonNull_pbind (nonNull_charP _)

/-- The whole `+UUDF:` grammar accepts an extension that does not begin
with a decimal digit after consuming its whole input, and returns the
same event. -/
theorem stableEnd_parse_uudf : StableEnd Char.isDigit parse_uudf_event := by
  have hu32 : Stable (preceded (charP ',') u32P) :=
    stable_pbind (stable_charP _) (fun _ => stable_u32P) (fun _ => consumes_u32P)
  have hi32 : Stable (preceded (charP ',') i32P) :=
    stable_pbind (stable_charP _) (fun _ => stable_i32P) (fun _ => consumes_i32P)
  have hqid : Stable (preceded (charP ',') parse_quoted_id) :=
    stable_pbind (stable_charP _) (fun _ => stable_parse_quoted_id)
      (fun _ => consumes_parse_quoted_id)
  have hqstr : Stable (preceded (charP ',') parse_quoted_string) :=
    stable_pbind (stable_charP _) (fun _ => stable_parse_quoted_string)
      (fun _ => consumes_parse_quoted_string)
  have hp1 : Stable (preceded (tagP ("+UUDF:".toList)) parse_id) :=
    stable_pbind (stable_tagP _) (fun _ => stable_parse_id)
      (fun _ => consumes_parse_id)
  have hlast : StableEnd Char.isDigit (preceded (charP ',') u32P) :=
    stableEnd_pbind (stable_charP _) (fun _ => stableEnd_u32P)
      (fun _ => nonNull_u32P)
  exact stableEnd_pbind hp1 (fun tagId =>
    stableEnd_pbind hi32 (fun rssi =>
      stableEnd_pbind hi32 (fun angle1 =>
        stableEnd_pbind hi32 (fun angle2 =>
          stableEnd_pbind hi32 (fun reserved =>
            stableEnd_pbind hu32 (fun channel =>
              stableEnd_pbind hqid (fun anchorId =>
                stableEnd_pbind hqstr (fun userDefined =>
                  stableEnd_pbind hu32 (fun timestamp =>
                    stableEnd_pmap hlast)
                    (fun _ => nonNull_pmap (nonNull_comma_field _)))
                  (fun _ => nonNull_pbind (nonNull_comma_field _)))
                (fun _ => nonNull_pbind (nonNull_comma_field _)))
              (fun _ => nonNull_pbind (nonNull_comma_field _)))
            (fun _ => nonNull_pbind (nonNull_comma_field _)))
          (fun _ => nonNull_pbind (nonNull_comma_field _)))
        (fun _ => nonNull_pbind (nonNull_comma_field _)))
      (fun _ => nonNull_pbind (nonNull_comma_field _)))
    (fun _ => nonNull_pbind (nonNull_comma_field _))

/-- A complete `+UUDFP:` message absorbs any trailing bytes: hex digits
extend the discarded final field and anything else is left as the
discarded remainder, so the parsed event is unchanged. -/
theorem parse_uudfp_append (s t : List Char) (ev : UUDFPEvent)
    (h : parse_uudfp_event s = .ok [] ev) :
    parse_uudfp_event (s ++ t) = .ok (t.dropWhile isHexDigitChar) ev := by
  unfold parse_uudfp_event at h ⊢
  obtain ⟨r₁, tagId, h1, h2⟩ := pbind_ok h
  obtain ⟨a, h3, hev⟩ := pmap_ok h2
  obtain ⟨r₂, cc, h4, h5⟩ := pbind_ok h3
  obtain ⟨hr₁, _⟩ := charP_ok h4
  have hst : Stable (preceded (tagP ("+UUDFP:".toList)) parse_id) :=
    stable_pbind (stable_tagP _) (fun _ => stable_parse_id)
      (fun _ => consumes_parse_id)
  have h1' := hst s r₁ tagId t h1 (by rw [hr₁]; simp)
  obtain ⟨hsv, hsr, hvne⟩ := span1_ok h5
  have hall := span_append_all isHexDigitChar r₂ t hsr
  have hr₂ne : r₂ ≠ [] := by
    intro hnil
    rw [hnil] at hsv
    exact hvne (by simp [← hsv])
  have hs1 : span1 isHexDigitChar (r₂ ++ t) =
      .ok (t.dropWhile isHexDigitChar) (r₂ ++ t.takeWhile isHexDigitChar) := by
    unfold span1
    rw [hall.1, hall.2]
    rcases hr₂ : r₂ with _ | ⟨c, r₂'⟩
    · exact absurd hr₂ hr₂ne
    · simp
  unfold pbind
  rw [h1']
  unfold pmap preceded pbind
  rw [hr₁]
  have hcomma : charP ',' (',' :: (r₂ ++ t)) = .ok (r₂ ++ t) ',' := by
    simp [charP]
  simp only [List.cons_append, hcomma, hs1]
  rw [hev]

/-- A complete `+UUDFP:` message begins with `+UUDFP:`, on which the
`+UUDF:` grammar's tag fails, so `alt` moves on without a panic. -/
theorem uudf_fail_on_uudfp (s t : List Char) (ev : UUDFPEvent)
    (h : parse_uudfp_event s = .ok [] ev) :
    parse_uudf_event (s ++ t) = .fail := by
  unfold parse_uudfp_event at h
  obtain ⟨r₁, tagId, h1, _⟩ := pbind_ok h
  unfold preceded at h1
  obtain ⟨r₀, tg, h0, _⟩ := pbind_ok h1
  obtain ⟨htake, _, _⟩ := tagP_ok h0
  have hs : s = ("+UUDFP:".toList) ++ s.drop (("+UUDFP:".toList).length) := by
    conv_lhs => rw [← List.take_append_drop (("+UUDFP:".toList).length) s]
    rw [htake]
  have htag : tagP ("+UUDF:".toList) (s ++ t) = .fail := by
    unfold tagP
    rw [if_neg ?_]
    rw [hs, List.append_assoc]
    rw [List.take_append_of_le_length (by simp)]
    decide
  unfold parse_uudf_event preceded pbind
  rw [htag]

/-- C9 counterexample: the claim says any string beginning with a
well-formed message parses to the same event as the prefix.  The test
vector followed by the single byte `4` still begins with that
well-formed message, but `from_str` merges the `4` into the final
`sequence` field and returns a different event (sequence 234, not 23). -/
theorem C9_counterexample_trailing_digit :
    parse_uudf_event
      (("+UUDF:CCF9578E0D8A,-42,20,0,-43,37,\"CCF9578E0D89\",\"\",15869,23").toList) =
      .ok []
        { tag_id := 0xCCF9578E0D8A, rssi := -42, angle_1 := 20, angle_2 := 0,
          reserved := -43, channel := 37, anchor_id := 0xCCF9578E0D89,
          user_defined := [], timestamp := 15869, sequence := 23 } ∧
    HardwareEvent.from_str
      (("+UUDF:CCF9578E0D8A,-42,20,0,-43,37,\"CCF9578E0D89\",\"\",15869,234").toList) =
      .ok (.UUDFEvent
        { tag_id := 0xCCF9578E0D8A, rssi := -42, angle_1 := 20, angle_2 := 0,
          reserved := -43, channel := 37, anchor_id := 0xCCF9578E0D89,
          user_defined := [], timestamp := 15869, sequence := 234 }) ∧
    (("+UUDF:CCF9578E0D8A,-42,20,0,-43,37,\"CCF9578E0D89\",\"\",15869,23").toList
        ++ ("4").toList) =
      (("+UUDF:CCF9578E0D8A,-42,20,0,-43,37,\"CCF9578E0D89\",\"\",15869,234").toList) ∧
    (234 : Nat) ≠ 23 := by
  refine ⟨by decide, by decide, by decide, by decide⟩

/-- C9 amended: `from_str` accepts trailing garbage with two provisos
forced by the counterexample.  A string beginning with a complete
`+UUDF:` message parses to the prefix's event provided the trailing
bytes do not begin with an ASCII digit (a digit would extend the final
numeric field, changing the event or overflowing the `u32`); a string
beginning with a complete `+UUDFP:` message parses to the prefix's
event for arbitrary trailing bytes (they merge into the discarded hex
field or are dropped as the remainder). -/
theorem C9_trailing_garbage :
    (∀ s t ev, parse_uudf_event s = .ok [] ev →
      (∀ c, t.head? = some c → c.isDigit = false) →
      HardwareEvent.from_str (s ++ t) = .ok (.UUDFEvent ev) ∧
      UUDFEvent.from_str (s ++ t) = .ok ev) ∧
    (∀ s t ev, parse_uudfp_event s = .ok [] ev →
      HardwareEvent.from_str (s ++ t) = .ok (.UUDFPEvent ev) ∧
      UUDFPEvent.from_str (s ++ t) = .ok ev) := by
  constructor
  · intro s t ev h ht
    have hp := stableEnd_parse_uudf s ev t h ht
    constructor
    · unfold HardwareEvent.from_str altP pmap
      rw [hp]
      rfl
    · unfold UUDFEvent.from_str
      rw [hp]
      rfl
  · intro s t ev h
    have hp := parse_uudfp_append s t ev h
    have hf := uudf_fail_on_uudfp s t ev h
    constructor
    · unfold HardwareEvent.from_str altP pmap
      rw [hp, hf]
      rfl
    · unfold UUDFPEvent.from_str
      rw [hp]
      rfl

/-- C9 witness: the test vector extended with a non-digit byte parses to
the prefix's event, and the heartbeat test vector extended with
arbitrary garbage parses to its event. -/
theorem C9_trailing_garbage_witness :
    HardwareEvent.from_str
      ((("+UUDF:CCF9578E0D8A,-42,20,0,-43,37,\"CCF9578E0D89\",\"\",15869,23").toList)
        ++ ((";x").toList)) =
      .ok (.UUDFEvent
        { tag_id := 0xCCF9578E0D8A, rssi := -42, angle_1 := 20, angle_2 := 0,
          reserved := -43, channel := 37, anchor_id := 0xCCF9578E0D89,
          user_defined := [], timestamp := 15869, sequence := 23 }) ∧
    HardwareEvent.from_str
      ((("+UUDFP:6C3DEBAFAEE4,19FF15").toList) ++ (("00!garbage").toList)) =
      .ok (.UUDFPEvent { tag_id := 0x6C3DEBAFAEE4 }) := by
  constructor
  · exact ((C9_trailing_garbage.1 _ _ _ (by decide) (by decide)).1)
  · exact ((C9_trailing_garbage.2 _ _ _ (by decide)).1)

/-! ### GrapeFile serialization lemmas (for the round-trip claim) -/

/-- Every digit produced by `toDigitsRevAux` is below 10. -/
theorem toDigitsRevAux_lt10 : ∀ (fuel n : Nat), ∀ d ∈ toDigitsRevAux fuel n, d < 10
  | 0, _ => by simp [toDigitsRevAux]
  | fuel + 1, n => by
      intro d hd
      rw [toDigitsRevAux] at hd
      split at hd
      · simp at hd
      · rcases List.mem_cons.mp hd with hd | hd
        · subst hd
          exact Nat.mod_lt _ (by omega)
        · exact toDigitsRevAux_lt10 fuel (n / 10) d hd

/-- With enough fuel, the digits evaluate back to the number. -/
theorem ofDigits_toDigitsRevAux : ∀ (fuel n : Nat), n ≤ fuel →
    Nat.ofDigits 10 (toDigitsRevAux fuel n) = n
  | 0, n, h => by
      interval_cases n
      simp [toDigitsRevAux, Nat.ofDigits]
  | fuel + 1, n, h => by
      rw [toDigitsRevAux]
      split
      · rename_i h0
        simp [h0, Nat.ofDigits]
      · rename_i h0
        have hdiv : n / 10 < n := Nat.div_lt_self (by omega) (by omega)
        rw [Nat.ofDigits_cons, ofDigits_toDigitsRevAux fuel (n / 10) (by omega)]
        omega

/-- Every byte of a printed number is an ASCII digit. -/
theorem natDecBytes_digits (n : Nat) : ∀ b ∈ natDecBytes n, isDigitByte b = true := by
  intro b hb
  unfold natDecBytes at hb
  split at hb
  · simp at hb
    subst hb
    rfl
  · rcases List.mem_map.mp hb with ⟨d, hd, rfl⟩
    have := toDigitsRevAux_lt10 n n d (List.mem_reverse.mp hd)
    simp [isDigitByte]
    omega

/-- A printed number is never empty. -/
theorem natDecBytes_ne_nil (n : Nat) : natDecBytes n ≠ [] := by
  unfold natDecBytes
  split
  · simp
  · rename_i h0
    rcases n with _ | m
    · exact absurd rfl h0
    · unfold toDigitsRev
      rw [toDigitsRevAux, if_neg h0]
      simp

/-- Folding the decimal accumulator over digit bytes equals folding it
over the digits. -/
theorem foldl_digit_bytes : ∀ (l : List Nat) (acc : Nat),
    (l.map (fun d => 48 + d)).foldl (fun a b => a * 10 + (b - 48)) acc =
    l.foldl (fun a d => a * 10 + d) acc
  | [], _ => rfl
  | d :: l, acc => by
      simp only [List.map_cons, List.foldl_cons, Nat.add_sub_cancel_left]
      exact foldl_digit_bytes l _

/-- Folding the decimal accumulator over reversed digits recovers the
little-endian digit value. -/
theorem foldl10_reverse : ∀ (l : List Nat) (acc : Nat),
    (l.reverse).foldl (fun a d => a * 10 + d) acc =
    acc * 10 ^ l.length + Nat.ofDigits 10 l
  | [], acc => by simp [Nat.ofDigits]
  | d :: l, acc => by
      rw [List.reverse_cons, List.foldl_append, foldl10_reverse l acc,
        Nat.ofDigits_cons]
      simp only [List.foldl_cons, List.foldl_nil, List.length_cons]
      ring

/-- The decimal parser's accumulator inverts the printer. -/
theorem foldl_natDecBytes (n : Nat) :
    (natDecBytes n).foldl (fun a b => a * 10 + (b - 48)) 0 = n := by
  unfold natDecBytes
  split
  · rename_i h0
    subst h0
    rfl
  · rw [foldl_digit_bytes, foldl10_reverse, Nat.zero_mul, Nat.zero_add]
    exact ofDigits_toDigitsRevAux n n le_rfl

/-- `parseNatB` consumes exactly a printed number followed by a
non-digit byte. -/
theorem parseNatB_natDecBytes (n : Nat) (rest : List Nat)
    (hrest : ∀ b, rest.head? = some b → isDigitByte b = false) :
    parseNatB (natDecBytes n ++ rest) = some (n, rest) := by
  have hdrop : (natDecBytes n).dropWhile isDigitByte = [] := by
    rw [List.dropWhile_eq_nil_iff]
    exact natDecBytes_digits n
  obtain ⟨htw, hdw⟩ := span_append_end isDigitByte (natDecBytes n) rest hdrop hrest
  unfold parseNatB
  rw [htw, hdw]
  rcases hnd : natDecBytes n with _ | ⟨c, ds⟩
  · exact absurd hnd (natDecBytes_ne_nil n)
  · have hv := foldl_natDecBytes n
    rw [hnd] at hv
    simp [hv]

/-- Consuming an exact literal prefix. -/
theorem expectLit_append (lit rest : List Nat) :
    expectLit lit (lit ++ rest) = some rest := by
  unfold expectLit
  rw [List.take_left, if_pos rfl, List.drop_left]

/-- `nameToTag` inverts `tagBytes`. -/
theorem nameToTag_tagBytes (t : GrapeTag) : nameToTag (tagBytes t) = some t := by
  cases t <;> rfl

/-- Every RON tag name is a nonempty run of bytes below 128 that
contains neither the comma (44) nor the bracket (93). -/
theorem tagBytes_facts (t : GrapeTag) :
    tagBytes t ≠ [] ∧ (44 : Nat) ∉ tagBytes t ∧ (93 : Nat) ∉ tagBytes t ∧
    ∀ b ∈ tagBytes t, b < 128 := by
  cases t <;> exact ⟨by decide, by decide, by decide, by decide⟩

/-- The comma-separated form of a nonempty list of tag names. -/
theorem intercalate44_cons_cons (x y : List Nat) (zs : List (List Nat)) :
    List.intercalate [44] (x :: y :: zs) = x ++ 44 :: List.intercalate [44] (y :: zs) := by
  simp [List.intercalate, List.intersperse]

/-- Membership in an `intercalate [44]`. -/
theorem mem_intercalate44 : ∀ (ls : List (List Nat)) (b : Nat),
    b ∈ List.intercalate [44] ls → b = 44 ∨ ∃ l ∈ ls, b ∈ l
  | [], b, hb => by simp [List.intercalate, List.intersperse] at hb
  | [l], b, hb => by
      simp [List.intercalate, List.intersperse] at hb
      exact Or.inr ⟨l, by simp, hb⟩
  | x :: y :: zs, b, hb => by
      rw [intercalate44_cons_cons] at hb
      rcases List.mem_append.mp hb with hb | hb
      · exact Or.inr ⟨x, by simp, hb⟩
      · rcases List.mem_cons.mp hb with hb | hb
        · exact Or.inl hb
        · rcases mem_intercalate44 (y :: zs) b hb with hb | ⟨l, hl, hbl⟩
          · exact Or.inl hb
          · exact Or.inr ⟨l, List.mem_cons_of_mem x hl, hbl⟩

/-- `tagsMapM` inverts `tagBytes` mapped over a tag list. -/
theorem tagsMapM_tagBytes : ∀ us : List GrapeTag,
    tagsMapM (us.map tagBytes) = some us
  | [] => rfl
  | u :: us => by
      simp [tagsMapM, nameToTag_tagBytes, tagsMapM_tagBytes us]

/-- `parseTags` inverts the serialized tag list. -/
theorem parseTags_ser (ts : List GrapeTag) (rest : List Nat) :
    parseTags (List.intercalate [44] (ts.map tagBytes) ++ 93 :: rest) =
    some (ts, rest) := by
  have hmem : ∀ b ∈ List.intercalate [44] (ts.map tagBytes),
      (decide (b ≠ 93)) = true := by
    intro b hb
    rcases mem_intercalate44 _ b hb with hb | ⟨l, hl, hbl⟩
    · simp [hb]
    · rcases List.mem_map.mp hl with ⟨t, _, rfl⟩
      have h93 := (tagBytes_facts t).2.2.1
      simp
      intro hb93
      exact h93 (hb93 ▸ hbl)
  have hdrop : (List.intercalate [44] (ts.map tagBytes)).dropWhile
      (fun b => decide (b ≠ 93)) = [] := by
    rw [List.dropWhile_eq_nil_iff]
    exact hmem
  obtain ⟨htw, hdw⟩ := span_append_end (fun b => decide (b ≠ 93))
    (List.intercalate [44] (ts.map tagBytes)) (93 :: rest) hdrop
    (by
      intro c hc
      simp at hc
      simp [← hc])
  unfold parseTags
  rw [htw, hdw]
  dsimp only
  rcases hts : ts with _ | ⟨t0, ts'⟩
  · simp [List.intercalate, List.intersperse]
  · have hne : List.intercalate [44] (ts.map tagBytes) ≠ [] := by
      rw [hts]
      rcases ts' with _ | ⟨t1, ts''⟩
      · simpa [List.intercalate, List.intersperse] using (tagBytes_facts t0).1
      · rw [List.map_cons, List.map_cons, intercalate44_cons_cons]
        simpa using (tagBytes_facts t0).1
    rw [← hts]
    have hsplit : (List.intercalate [44] (ts.map tagBytes)).splitOn 44 =
        ts.map tagBytes := by
      have h44 : ∀ l ∈ ts.map tagBytes, (44 : Nat) ∉ l := by
        intro l hl
        rcases List.mem_map.mp hl with ⟨t, _, rfl⟩
        exact (tagBytes_facts t).2.1
      have hmapne : ts.map tagBytes ≠ [] := by
        rw [hts]
        simp
      exact List.splitOn_intercalate _ 44 h44 hmapne
    rw [if_neg (by simpa [List.isEmpty_iff] using hne)]
    rw [hsplit, tagsMapM_tagBytes]

/-- Every byte of a serialized header is below 128 (in particular it is
never the `0xFF` delimiter). -/
theorem serHeader_lt128 (h : GrapeFileHeader) : ∀ b ∈ serHeader h, b < 128 := by
  intro b hb
  unfold serHeader at hb
  simp only [List.append_assoc, List.mem_append] at hb
  rcases hb with hb | hb | hb | hb | hb | hb | hb
  · have hl : ∀ b ∈ strBytes "(n_streams:", b < 128 := by decide
    exact hl b hb
  · have := natDecBytes_digits h.n_streams b hb
    simp [isDigitByte] at this
    omega
  · have hl : ∀ b ∈ strBytes ",sample_rate:", b < 128 := by decide
    exact hl b hb
  · have := natDecBytes_digits h.sample_rate b hb
    simp [isDigitByte] at this
    omega
  · have hl : ∀ b ∈ strBytes ",tags:[", b < 128 := by decide
    exact hl b hb
  · rcases mem_intercalate44 _ b hb with hb | ⟨l, hl, hbl⟩
    · omega
    · rcases List.mem_map.mp hl with ⟨t, _, rfl⟩
      exact (tagBytes_facts t).2.2.2 b hbl
  · have hl : ∀ b ∈ strBytes "])", b < 128 := by decide
    exact hl b hb

/-- Consuming an exact literal with nothing after it. -/
theorem expectLit_self (lit : List Nat) : expectLit lit lit = some [] := by
  have h := expectLit_append lit []
  rwa [List.append_nil] at h

/-- The canonical header parser inverts the serializer. -/
theorem headerParse_serHeader (h : GrapeFileHeader) :
    headerParse (serHeader h) = some h := by
  unfold serHeader headerParse
  simp only [List.append_assoc]
  rw [expectLit_append]
  simp only [Option.bind_eq_bind, Option.some_bind]
  rw [parseNatB_natDecBytes _ _ (by
    intro b hb
    rw [show strBytes ",sample_rate:" = 44 :: strBytes "sample_rate:" from rfl] at hb
    simp only [List.cons_append, List.head?_cons, Option.some.injEq] at hb
    rw [← hb]
    rfl)]
  simp only [Option.some_bind]
  rw [expectLit_append]
  simp only [Option.some_bind]
  rw [parseNatB_natDecBytes _ _ (by
    intro b hb
    rw [show strBytes ",tags:[" = 44 :: strBytes "tags:[" from rfl] at hb
    simp only [List.cons_append, List.head?_cons, Option.some.injEq] at hb
    rw [← hb]
    rfl)]
  simp only [Option.some_bind]
  rw [expectLit_append]
  simp only [Option.some_bind]
  rw [show (strBytes "])") = 93 :: strBytes ")" from rfl]
  rw [parseTags_ser]
  simp only [Option.some_bind]
  rw [expectLit_self]
  rfl

/-- Reassembling 4-byte chunks inverts the big-endian serialization of
32-bit samples. -/
theorem parseSamples_flatMap : ∀ xs : List Nat, (∀ x ∈ xs, x < 2 ^ 32) →
    parseSamples (xs.flatMap be4) = some xs
  | [], _ => rfl
  | x :: xs, h => by
      have hx := h x (by simp)
      have ih := parseSamples_flatMap xs (fun y hy => h y (by simp [hy]))
      rw [List.flatMap_cons]
      rw [show be4 x = [x / 2 ^ 24 % 256, x / 2 ^ 16 % 256, x / 2 ^ 8 % 256, x % 256]
        from rfl]
      simp only [List.cons_append, List.nil_append]
      rw [parseSamples, ih]
      simp only [Option.map_some', Option.some.injEq]
      congr 1
      omega

/-- Byte-level round trip: reading back a written `GrapeFile` whose
samples are 32-bit words recovers it exactly. -/
theorem from_file_to_file (f : GrapeFile Nat) (hs : ∀ x ∈ f.samples, x < 2 ^ 32) :
    GrapeFile.from_file (GrapeFile.to_file f) = .ok f := by
  unfold GrapeFile.to_file GrapeFile.from_file
  have hhead : ∀ b ∈ serHeader f.header, (decide (b ≠ 255)) = true := by
    intro b hb
    have := serHeader_lt128 f.header b hb
    simp
    omega
  have hdrop : (serHeader f.header).dropWhile (fun b => decide (b ≠ 255)) = [] := by
    rw [List.dropWhile_eq_nil_iff]
    exact hhead
  obtain ⟨htw, hdw⟩ := span_append_end (fun b => decide (b ≠ 255))
    (serHeader f.header) (255 :: f.samples.flatMap be4) hdrop
    (by
      intro c hc
      simp at hc
      simp [← hc])
  simp only [List.append_assoc, List.singleton_append]
  rw [htw, hdw]
  dsimp only
  rw [headerParse_serHeader, parseSamples_flatMap _ hs]

/-- The samples of a truncating build come from the streams (or are the
never-used default 0), so they stay below `2^32`. -/
theorem build_truncate_samples_bound (b : GrapeFileBuilder Nat)
    (hb : ∀ p ∈ b.streams, ∀ x ∈ p.2, x < 2 ^ 32) :
    ∀ x ∈ b.build_truncate.samples, x < 2 ^ 32 := by
  intro x hx
  unfold GrapeFileBuilder.build_truncate at hx
  dsimp only at hx
  rcases hmin : minLens ((b.streams.map Prod.snd).map List.length) with _ | m <;>
    rw [hmin] at hx
  · simp at hx
  · rcases List.mem_flatMap.mp hx with ⟨i, _, hxin⟩
    rcases List.mem_map.mp hxin with ⟨v, hv, rfl⟩
    rcases List.mem_map.mp hv with ⟨p, hp, rfl⟩
    rw [List.getD_eq_getElem?_getD]
    rcases hget : p.2[i]? with _ | y
    · simp
    · have hy := List.getElem?_mem hget
      simpa using hb p hp y hy

/-- The samples of an extending build come from the streams, from a
stream's last element, or are the empty-stream pad 0, so they stay
below `2^32`. -/
theorem build_extend_samples_bound (b : GrapeFileBuilder Nat)
    (hb : ∀ p ∈ b.streams, ∀ x ∈ p.2, x < 2 ^ 32) :
    ∀ x ∈ b.build_extend.samples, x < 2 ^ 32 := by
  intro x hx
  unfold GrapeFileBuilder.build_extend at hx
  dsimp only at hx
  rcases hmax : maxLens ((b.streams.map Prod.snd).map List.length) with _ | m <;>
    rw [hmax] at hx
  · simp at hx
  · rcases List.mem_flatMap.mp hx with ⟨i, _, hxin⟩
    rcases List.mem_map.mp hxin with ⟨⟨v, last⟩, hv, rfl⟩
    have hvmem := List.mem_zip hv
    rcases List.mem_map.mp hvmem.1 with ⟨p, hp, rfl⟩
    rcases List.mem_map.mp hvmem.2 with ⟨v', hv', rfl⟩
    rcases List.mem_map.mp hv' with ⟨q, hq, rfl⟩
    dsimp only
    rcases hget : p.2[i]? with _ | y
    · simp only [hget, Option.getD_none]
      rw [List.getLastD_eq_getLast?]
      rcases hlast : q.2.getLast? with _ | z
      · norm_num
      · have hz := List.mem_of_mem_getLast? hlast
        simpa using hb q hq z hz
    · have hy := List.getElem?_mem hget
      simpa [hget] using hb p hp y hy

/-! ## Claim theorems -/

/-- C1: the spec says the decoder never panics on malformed input and in
particular not on a hex id whose length is not 12 digits.  The code is
wrong: `parse_id` calls `u64::from_str_radix("hey", 0)` on any other id
length, and a radix of 0 is outside the `[2, 36]` range that
`from_str_radix` asserts, so all three `from_str` entry points panic on
an 11-digit id instead of returning a parse error. -/
theorem C1_decoder_panics_on_bad_id_length :
    HardwareEvent.from_str
      (("+UUDF:CCF9578E0D8,-42,20,0,-43,37,\"CCF9578E0D89\",\"\",15869,23").toList) =
      .panic ∧
    UUDFEvent.from_str
      (("+UUDF:CCF9578E0D8,-42,20,0,-43,37,\"CCF9578E0D89\",\"\",15869,23").toList) =
      .panic ∧
    UUDFPEvent.from_str (("+UUDFP:6C3DEBAFAEE,19FF15").toList) = .panic := by
  refine ⟨by decide, by decide, by decide⟩

/-- C2 counterexample: the claim says draining yields the updates in
arrival order.  Adding the event with `anchor_id = 1` and then the event
with `anchor_id = 2` and draining yields the updates in the opposite
order, because `add_update` pushes to the front and `next` pops from the
same front. -/
theorem C2_counterexample_fifo :
    Hdm.drain (Hdm.addAll []
      [{ tag_id := 10, rssi := 0, angle_1 := 0, angle_2 := 0, reserved := 0,
         channel := 0, anchor_id := 1, user_defined := [], timestamp := 0,
         sequence := 1 },
       { tag_id := 10, rssi := 0, angle_1 := 0, angle_2 := 0, reserved := 0,
         channel := 0, anchor_id := 2, user_defined := [], timestamp := 0,
         sequence := 2 }]) ≠
    [updateOfEvent
       { tag_id := 10, rssi := 0, angle_1 := 0, angle_2 := 0, reserved := 0,
         channel := 0, anchor_id := 1, user_defined := [], timestamp := 0,
         sequence := 1 },
     updateOfEvent
       { tag_id := 10, rssi := 0, angle_1 := 0, angle_2 := 0, reserved := 0,
         channel := 0, anchor_id := 2, user_defined := [], timestamp := 0,
         sequence := 2 }] := by
  simp [Hdm.addAll_eq, Hdm.drain_eq, updateOfEvent]

/-- C2 amended: the buffer is LIFO, not FIFO — for every sequence of
`add_update` calls, repeatedly calling `next` yields the corresponding
updates in reverse arrival order (most recent first), with no update
dropped or duplicated. -/
theorem C2_hdm_lifo (es : List UUDFEvent) :
    Hdm.drain (Hdm.addAll [] es) = (es.map updateOfEvent).reverse := by
  simp [Hdm.addAll_eq, Hdm.drain_eq]

/-- C7: `build` fails with `UnequalSampleBufferLengths` exactly when two
added streams have different lengths; otherwise it succeeds with
`n_streams` the number of added streams, the tags in insertion order,
and the samples interleaved round-robin (element `j` of the file at
round `i` is element `i` of stream `j`); a builder with no streams
builds to zero streams and zero samples. -/
theorem C7_build_spec {α : Type} [Zero α] (b : GrapeFileBuilder α) :
    (b.build = FResult.err .UnequalSampleBufferLengths ↔
      ∃ p ∈ b.streams, ∃ q ∈ b.streams, p.2.length ≠ q.2.length) ∧
    ∀ f, b.build = .ok f →
      f.header.n_streams = b.streams.length ∧
      f.header.sample_rate = b.sample_rate ∧
      f.header.tags = b.streams.map Prod.fst ∧
      (∀ p ∈ b.streams, f.samples.length = b.streams.length * p.2.length) ∧
      (∀ j i p, b.streams[j]? = some p → i < p.2.length →
        f.samples[i * b.streams.length + j]? = p.2[i]?) ∧
      (b.streams = [] → f.samples = []) := by
  obtain ⟨sr, streams⟩ := b
  have hiff : (((streams.map (fun p => p.2.length)).zip
        (streams.map (fun p => p.2.length)).tail).all (fun p => p.1 == p.2) = true) ↔
      ∀ p ∈ streams, ∀ q ∈ streams, p.2.length = q.2.length := by
    rw [adj_all_iff]
    constructor
    · intro h p hp q hq
      exact h _ (List.mem_map_of_mem _ hp) _ (List.mem_map_of_mem _ hq)
    · intro h a ha c hc
      rcases List.mem_map.mp ha with ⟨p, hp, rfl⟩
      rcases List.mem_map.mp hc with ⟨q, hq, rfl⟩
      exact h p hp q hq
  constructor
  · show GrapeFileBuilder.build ⟨sr, streams⟩ = .err _ ↔ _
    rw [GrapeFileBuilder.build]
    split
    · rename_i hcond
      constructor
      · intro h
        exact absurd h (by simp)
      · rintro ⟨p, hp, q, hq, hne⟩
        exact absurd (hiff.mp hcond p hp q hq) hne
    · rename_i hcond
      have hex : ∃ p ∈ streams, ∃ q ∈ streams, p.2.length ≠ q.2.length := by
        by_contra hno
        push_neg at hno
        exact hcond (hiff.mpr hno)
      exact ⟨fun _ => hex, fun _ => rfl⟩
  · intro f hok
    rw [GrapeFileBuilder.build] at hok
    split at hok
    · rename_i hcond
      have hlens := hiff.mp hcond
      have hf : f = GrapeFileBuilder.build_truncate ⟨sr, streams⟩ := by
        injection hok with h
        exact h.symm
      subst hf
      rw [GrapeFileBuilder.build_truncate]
      rcases streams with _ | ⟨⟨t0, v0⟩, rest⟩
      · simp [minLens]
      · have hmin : minLens (List.map List.length
            (List.map Prod.snd ((t0, v0) :: rest))) = some v0.length := by
          simp only [List.map_cons, minLens]
          exact congrArg some (foldl_min_const _ _ (by
            intro x hx
            rcases List.mem_map.mp hx with ⟨v, hv, rfl⟩
            rcases List.mem_map.mp hv with ⟨p, hp, rfl⟩
            exact hlens p (List.mem_cons_of_mem _ hp) (t0, v0) (by simp)))
        rw [hmin]
        have hlen0 : ∀ p ∈ (t0, v0) :: rest, p.2.length = v0.length := by
          intro p hp
          exact hlens p hp (t0, v0) (by simp)
        refine ⟨by simp, rfl, rfl, ?_, ?_, ?_⟩
        · intro p hp
          rw [flatMap_length_fixed _ (List.map Prod.snd ((t0, v0) :: rest)).length
            (by simp)]
          rw [List.length_range, hlen0 p hp]
          simp [Nat.mul_comm]
        · intro j i p hj hi
          dsimp only at hj ⊢
          have hjlt : j < ((t0, v0) :: rest).length := by
            by_contra hge
            push_neg at hge
            rw [List.getElem?_eq_none (by omega)] at hj
            exact absurd hj (by simp)
          have hplen : p.2.length = v0.length :=
            hlen0 p (List.mem_iff_getElem?.mpr ⟨j, hj⟩)
          have hflat : ((List.range v0.length).flatMap
              (fun i => (((t0, v0) :: rest).map Prod.snd).map (fun v => v.getD i 0))) =
              ((List.range v0.length).map
                (fun i => (((t0, v0) :: rest).map Prod.snd).map
                  (fun v => v.getD i 0))).flatten := by
            simp [List.flatMap_def]
          have hlen' : (((t0, v0) :: rest).map Prod.snd).length =
              ((t0, v0) :: rest).length := by simp
          show (((List.range v0.length).flatMap
              (fun i => (((t0, v0) :: rest).map Prod.snd).map
                (fun v => v.getD i 0))))[i * ((t0, v0) :: rest).length + j]? = p.2[i]?
          rw [hflat, flatten_getElem_fixed ((t0, v0) :: rest).length _
              (by
                intro bl hbl
                rcases List.mem_map.mp hbl with ⟨x, _, rfl⟩
                simp) i j hjlt]
          rw [List.getElem?_map, List.getElem?_range (by omega)]
          simp only [Option.map_some', Option.some_bind]
          rw [List.getElem?_map, List.getElem?_map, hj]
          simp only [Option.map_some']
          rw [List.getElem?_eq_getElem hi]
          exact congrArg some (List.getD_eq_getElem p.2 0 hi)
        · intro hnil
          exact absurd hnil (by simp)
    · exact absurd hok (by simp)

/-- C7 witness: a two-stream builder with equal lengths builds, and the
theorem's round-robin characterization holds at stream 0, round 1. -/
theorem C7_build_spec_witness :
    ((⟨1000, [(GrapeTag.X, [1, 2]), (GrapeTag.Y, [3, 4])]⟩ :
        GrapeFileBuilder Nat).build = .ok ⟨⟨2, 1000, [.X, .Y]⟩, [1, 3, 2, 4]⟩) ∧
    ((⟨⟨2, 1000, [.X, .Y]⟩, [1, 3, 2, 4]⟩ : GrapeFile Nat).header.n_streams =
      [(GrapeTag.X, ([1, 2] : List Nat)), (GrapeTag.Y, [3, 4])].length) ∧
    ((⟨⟨2, 1000, [.X, .Y]⟩, [1, 3, 2, 4]⟩ : GrapeFile Nat).samples[1 * 2 + 0]? =
      ([1, 2] : List Nat)[1]?) := by
  have h := C7_build_spec
    (⟨1000, [(GrapeTag.X, [1, 2]), (GrapeTag.Y, [3, 4])]⟩ : GrapeFileBuilder Nat)
  have hok : (⟨1000, [(GrapeTag.X, [1, 2]), (GrapeTag.Y, [3, 4])]⟩ :
      GrapeFileBuilder Nat).build = .ok ⟨⟨2, 1000, [.X, .Y]⟩, [1, 3, 2, 4]⟩ := by
    decide
  have h2 := h.2 _ hok
  exact ⟨hok, h2.1, h2.2.2.2.2.1 0 1 (GrapeTag.X, [1, 2]) (by decide) (by decide)⟩

/-- C10: starting from a fresh accumulator, after any sequence of
`get_status` calls every window in the map is nonempty, so the next
`get_status` reaches neither the `v[0]` indexing nor the division on an
empty window and never panics. -/
theorem C10_accumulator_never_panics (batches : List (List Update))
    (pending : List Update) :
    (∀ e ∈ insertAll (runAcc batches) pending, e.2 ≠ []) ∧
    ((get_status (runAcc batches) pending).1.isSome = true) ∧
    (∀ e ∈ (get_status (runAcc batches) pending).2, e.2 ≠ []) := by
  have h1 := @insertAll_ne_nil pending (runAcc batches) (runAcc_ne_nil batches)
  exact ⟨h1, statusRes_isSome h1, trimM_ne_nil h1⟩

/-- C4: feeding `K + 1 = 51` updates for one key `k` into a fresh
accumulator and calling `get_status` returns exactly one summary, whose
key is `k` and whose `azm`/`elv` are the arithmetic means over the 50
most recent entries, and afterwards the window retains exactly the last
50 updates (the oldest is evicted); no other key appears in the
result. -/
theorem C4_accumulator_windowing (us : List Update) (k : Nat × Nat)
    (hk : ∀ u ∈ us, (u.src, u.dst) = k) (hlen : us.length = 51) :
    insertAll [] us = [(k, us)] ∧
    statusRes (insertAll [] us) =
      some [{ src := k.1, dst := k.2,
              elv := ((us.reverse.take 50).map Update.elv).sum / 50,
              azm := ((us.reverse.take 50).map Update.azm).sum / 50 }] ∧
    trimM (insertAll [] us) = [(k, us.drop 1)] := by
  have hne : us ≠ [] := by
    intro h
    rw [h] at hlen
    simp at hlen
  have hins : insertAll [] us = [(k, us)] := by
    rcases us with _ | ⟨u, us'⟩
    · exact absurd rfl hne
    · rw [insertAll, List.foldl_cons]
      have h0 : insertU [] u = [((u.src, u.dst), [u])] := rfl
      rw [h0, hk u (by simp)]
      have hrec := insertAll_single k us' [u]
        (fun u' hu' => hk u' (by simp [hu']))
      rw [insertAll] at hrec
      rw [hrec]
      simp
  have hlen50 : (us.reverse.take 50).length = 50 := by
    rw [List.length_take, List.length_reverse, hlen]
    rfl
  refine ⟨hins, ?_, ?_⟩
  · rw [hins]
    rcases htk : us.reverse.take 50 with _ | ⟨h0, t⟩
    · rw [htk] at hlen50
      simp at hlen50
    · have hmem : h0 ∈ us := by
        have hm : h0 ∈ us.reverse.take 50 := by
          rw [htk]
          simp
        exact List.mem_reverse.mp (List.mem_of_mem_take hm)
      have hk0 := hk h0 hmem
      have hsrc : h0.src = k.1 := by
        rw [← hk0]
      have hdst : h0.dst = k.2 := by
        rw [← hk0]
      simp only [statusRes, statusEntry, htk]
      rw [← htk, hlen50, hsrc, hdst]
      norm_cast
  · rw [hins]
    simp only [trimM, List.map_cons, List.map_nil, trimW, hlen]

/-- C4 witness: 51 identical updates for key `(1, 2)` leave a 50-entry
window and return one summary carrying the mean. -/
theorem C4_accumulator_windowing_witness :
    (∀ u ∈ List.replicate 51 ({ src := 1, dst := 2, elv := 0, azm := 0 } : Update),
      (u.src, u.dst) = ((1, 2) : Nat × Nat)) ∧
    (List.replicate 51 ({ src := 1, dst := 2, elv := 0, azm := 0 } : Update)).length = 51 ∧
    statusRes (insertAll []
        (List.replicate 51 ({ src := 1, dst := 2, elv := 0, azm := 0 } : Update))) =
      some [{ src := 1, dst := 2,
              elv := (((List.replicate 51
                  ({ src := 1, dst := 2, elv := 0, azm := 0 } : Update)).reverse.take 50).map
                  Update.elv).sum / 50,
              azm := (((List.replicate 51
                  ({ src := 1, dst := 2, elv := 0, azm := 0 } : Update)).reverse.take 50).map
                  Update.azm).sum / 50 }] ∧
    trimM (insertAll []
        (List.replicate 51 ({ src := 1, dst := 2, elv := 0, azm := 0 } : Update))) =
      [((1, 2),
        (List.replicate 51 ({ src := 1, dst := 2, elv := 0, azm := 0 } : Update)).drop 1)] := by
  have h := C4_accumulator_windowing
    (List.replicate 51 ({ src := 1, dst := 2, elv := 0, azm := 0 } : Update))
    (1, 2) (by decide) (by decide)
  exact ⟨by decide, by decide, h.2.1, h.2.2⟩

/-- `chunks(2)` produces `⌈len / 2⌉` chunks. -/
theorem chunks2_length : ∀ l : List α, (chunks2 l).length = (l.length + 1) / 2
  | [] => by simp [chunks2]
  | [_] => by simp [chunks2]
  | a :: b :: r => by
      simp only [chunks2, List.length_cons, chunks2_length r]
      omega

/-- When every pair holds a back-antenna and a front-antenna update and
there are as many pairs as tag settings, processing the pairs reaches no
`.expect` panic and yields one metadata entry per pair. -/
theorem queryPairs_some : ∀ (ts : List (ℚ × ℚ)) (ps : List (List Update)),
    ps.length = ts.length →
    (∀ pair ∈ ps, (∃ u ∈ pair, u.src = BACK_ANTENNA) ∧
      (∃ u ∈ pair, u.src = FRONT_ANTENNA)) →
    ∃ l, queryPairs ts ps = some l ∧ l.length = ts.length
  | ts, [], hlen, _ => by
      cases ts with
      | nil => exact ⟨[], rfl, rfl⟩
      | cons t ts => simp at hlen
  | [], p :: ps, hlen, h => by simp at hlen
  | t :: ts, p :: ps, hlen, h => by
      obtain ⟨⟨ub, hub, hubs⟩, uf, huf, hufs⟩ := h p (by simp)
      have hback : (p.find? (fun u => u.src = BACK_ANTENNA)).isSome = true :=
        List.find?_isSome.mpr ⟨ub, hub, by simp [hubs]⟩
      have hfront : (p.find? (fun u => u.src = FRONT_ANTENNA)).isSome = true :=
        List.find?_isSome.mpr ⟨uf, huf, by simp [hufs]⟩
      rcases hfb : p.find? (fun u => u.src = BACK_ANTENNA) with _ | b
      · rw [hfb] at hback
        simp at hback
      rcases hff : p.find? (fun u => u.src = FRONT_ANTENNA) with _ | fr
      · rw [hff] at hfront
        simp at hfront
      obtain ⟨l, hql, hl⟩ := queryPairs_some ts ps (by simpa using hlen)
        (fun q hq => h q (by simp [hq]))
      refine ⟨mkMetadata b fr t.1 t.2 :: l, ?_, by simp [hl]⟩
      simp [queryPairs, procPair, hfb, hff, hql]

/-- Successful pair processing only produces `mkMetadata` records. -/
theorem procPair_shape {t : ℚ × ℚ} {p : List Update} {m : BufferMetadata}
    (h : procPair t p = some m) : ∃ back front, m = mkMetadata back front t.1 t.2 := by
  unfold procPair at h
  rcases hfb : p.find? (fun u => u.src = BACK_ANTENNA) with _ | b
  · rw [hfb] at h
    simp at h
  rcases hff : p.find? (fun u => u.src = FRONT_ANTENNA) with _ | fr
  · rw [hfb, hff] at h
    simp at h
  rw [hfb, hff] at h
  simp at h
  exact ⟨b, fr, h.symm⟩

/-- Every metadata entry a successful `queryPairs` run returns is an
`mkMetadata` record. -/
theorem queryPairs_mem : ∀ (ts : List (ℚ × ℚ)) (ps : List (List Update))
    (l : List BufferMetadata), queryPairs ts ps = some l →
    ∀ m ∈ l, ∃ back front g r, m = mkMetadata back front g r
  | ts, [], l, h, m, hm => by
      cases ts with
      | nil =>
          simp [queryPairs] at h
          subst h
          simp at hm
      | cons t ts =>
          simp [queryPairs] at h
          subst h
          simp at hm
  | [], p :: ps, l, h, m, hm => by simp [queryPairs] at h
  | t :: ts, p :: ps, l, h, m, hm => by
      rw [queryPairs] at h
      rcases hpp : procPair t p with _ | m0
      · rw [hpp] at h
        simp at h
      rcases hqq : queryPairs ts ps with _ | l'
      · rw [hpp, hqq] at h
        simp at h
      rw [hpp, hqq] at h
      simp at h
      subst h
      rcases List.mem_cons.mp hm with hm | hm
      · obtain ⟨back, front, heq⟩ := procPair_shape hpp
        exact ⟨back, front, t.1, t.2, hm ▸ heq⟩
      · exact queryPairs_mem ts ps l' hqq m hm

/-- `scale_angle` lands in the clamp interval `[-π/2, π/2]`. -/
theorem scale_angle_bounds (x : ℚ) :
    -(pi32 / 2) ≤ scale_angle x ∧ scale_angle x ≤ pi32 / 2 := by
  unfold scale_angle clampQ
  refine ⟨le_max_left _ _, max_le (by norm_num [pi32]) (min_le_right _ _)⟩

/-- The azimuth pipeline lands in `[0, 2π)` and the elevation stays in
`[-π/2, π/2]`. -/
theorem mkMetadata_bounds (back front : Update) (g r : ℚ) :
    0 ≤ (mkMetadata back front g r).azimuth ∧
    (mkMetadata back front g r).azimuth < 2 * pi32 ∧
    -(pi32 / 2) ≤ (mkMetadata back front g r).elevation ∧
    (mkMetadata back front g r).elevation ≤ pi32 / 2 := by
  have hpi : (0 : ℚ) < pi32 := by norm_num [pi32]
  obtain ⟨hs1, hs2⟩ := scale_angle_bounds back.azm
  obtain ⟨he1, he2⟩ := scale_angle_bounds back.elv
  unfold mkMetadata
  dsimp only
  split_ifs with h1 h2 h3 <;>
    refine ⟨by linarith, by linarith, he1, he2⟩

/-- C5 amended: every `BufferMetadata` produced by `Sphericalizer::query`
has its azimuth normalized into `[0, 2π)`, but its elevation is only
scaled and clamped into `[-π/2, π/2]` — it is not wrapped into
`[0, 2π)`. -/
theorem C5_angles_normalized (ts : List (ℚ × ℚ)) (updates : List Update)
    (l : List BufferMetadata) (m : BufferMetadata)
    (hq : Sphericalizer.query ts updates = .ready l) (hm : m ∈ l) :
    0 ≤ m.azimuth ∧ m.azimuth < 2 * pi32 ∧
    -(pi32 / 2) ≤ m.elevation ∧ m.elevation ≤ pi32 / 2 := by
  unfold Sphericalizer.query at hq
  split_ifs at hq
  rcases hqq : queryPairs ts
      (chunks2 (updates.insertionSort (fun a b => a.dst ≤ b.dst))) with _ | l'
  · rw [hqq] at hq
    simp at hq
  · rw [hqq] at hq
    simp at hq
    subst hq
    obtain ⟨back, front, g, r, rfl⟩ := queryPairs_mem _ _ _ hqq m hm
    exact mkMetadata_bounds back front g r

/-- C6 counterexample: the claim says a snapshot with exactly
`2 × num_tags` updates yields `Some` with `num_tags` entries.  With one
tag setting and two updates that both come from an unknown antenna id,
the count matches but `query` panics in the `.expect` that looks up the
back antenna, instead of returning `Some`. -/
theorem C6_counterexample_panic :
    ([({ src := 0, dst := 5, elv := 0, azm := 0 } : Update),
      { src := 0, dst := 6, elv := 0, azm := 0 }].length =
      [((1 : ℚ), (1 : ℚ))].length * 2) ∧
    Sphericalizer.query [(1, 1)]
      [{ src := 0, dst := 5, elv := 0, azm := 0 },
       { src := 0, dst := 6, elv := 0, azm := 0 }] = .panic := by
  constructor
  · decide
  · decide

/-- C5 witness: the amended bounds hold for the metadata produced from a
back update with a clamped negative elevation. -/
theorem C5_angles_normalized_witness :
    0 ≤ ({ azimuth := pi32 / 2, elevation := -(pi32 / 2), range := 1, gain := 1 } :
      BufferMetadata).azimuth ∧
    ({ azimuth := pi32 / 2, elevation := -(pi32 / 2), range := 1, gain := 1 } :
      BufferMetadata).azimuth < 2 * pi32 ∧
    -(pi32 / 2) ≤
      ({ azimuth := pi32 / 2, elevation := -(pi32 / 2), range := 1, gain := 1 } :
        BufferMetadata).elevation ∧
    ({ azimuth := pi32 / 2, elevation := -(pi32 / 2), range := 1, gain := 1 } :
      BufferMetadata).elevation ≤ pi32 / 2 :=
  C5_angles_normalized [(1, 1)]
    [{ src := BACK_ANTENNA, dst := 5, elv := -2, azm := 0 },
     { src := FRONT_ANTENNA, dst := 5, elv := 0, azm := 0 }]
    [{ azimuth := pi32 / 2, elevation := -(pi32 / 2), range := 1, gain := 1 }]
    { azimuth := pi32 / 2, elevation := -(pi32 / 2), range := 1, gain := 1 }
    (by
      norm_num [Sphericalizer.query, queryPairs, procPair, mkMetadata, scale_angle,
        clampQ, chunks2, List.insertionSort, List.orderedInsert, List.find?,
        BACK_ANTENNA, FRONT_ANTENNA, pi32])
    (by simp)

/-- C5 counterexample: the claim says both angles are normalized into
`[0, 2π)`.  A back update with elevation `-2` rad produces metadata
whose elevation is `-π/2 < 0`, outside `[0, 2π)` — the pipeline never
wraps the elevation. -/
theorem C5_counterexample_negative_elevation :
    Sphericalizer.query [(1, 1)]
      [{ src := BACK_ANTENNA, dst := 5, elv := -2, azm := 0 },
       { src := FRONT_ANTENNA, dst := 5, elv := 0, azm := 0 }] =
      .ready [{ azimuth := pi32 / 2, elevation := -(pi32 / 2), range := 1, gain := 1 }] ∧
    -(pi32 / 2) < 0 := by
  constructor
  · norm_num [Sphericalizer.query, queryPairs, procPair, mkMetadata, scale_angle,
      clampQ, chunks2, List.insertionSort, List.orderedInsert, List.find?,
      BACK_ANTENNA, FRONT_ANTENNA, pi32]
  · norm_num [pi32]

/-- C6 amended: a snapshot whose size is not exactly `2 × num_tags`
returns `None` with no partial results; a snapshot of exactly
`2 × num_tags` updates returns `Some` with exactly `num_tags` entries
provided every sorted pair contains one back-antenna and one
front-antenna update — without that proviso the `.expect` calls panic,
as the counterexample shows. -/
theorem C6_query_readiness (ts : List (ℚ × ℚ)) (updates : List Update) :
    (updates.length ≠ ts.length * 2 → Sphericalizer.query ts updates = .notReady) ∧
    (updates.length = ts.length * 2 →
      (∀ pair ∈ chunks2 (updates.insertionSort (fun a b => a.dst ≤ b.dst)),
        (∃ u ∈ pair, u.src = BACK_ANTENNA) ∧ (∃ u ∈ pair, u.src = FRONT_ANTENNA)) →
      ∃ l, Sphericalizer.query ts updates = .ready l ∧ l.length = ts.length) := by
  constructor
  · intro hne
    simp [Sphericalizer.query, hne]
  · intro hlen hpairs
    have hplen : (chunks2 (updates.insertionSort (fun a b => a.dst ≤ b.dst))).length =
        ts.length := by
      rw [chunks2_length, List.length_insertionSort, hlen]
      omega
    obtain ⟨l, hq, hl⟩ := queryPairs_some ts _ hplen hpairs
    refine ⟨l, ?_, hl⟩
    simp [Sphericalizer.query, hlen, hq]

/-- C6 witness: one tag setting and a back/front pair for the same tag
yield `Some` with exactly one entry. -/
theorem C6_query_readiness_witness :
    ∃ l, Sphericalizer.query [(1, 1)]
      [{ src := BACK_ANTENNA, dst := 5, elv := 0, azm := 0 },
       { src := FRONT_ANTENNA, dst := 5, elv := 0, azm := 0 }] = .ready l ∧
      l.length = [((1 : ℚ), (1 : ℚ))].length :=
  (C6_query_readiness [(1, 1)]
    [{ src := BACK_ANTENNA, dst := 5, elv := 0, azm := 0 },
     { src := FRONT_ANTENNA, dst := 5, elv := 0, azm := 0 }]).2 (by decide) (by decide)

/-- `windows(2)` produces `len − 1` pairs. -/
theorem windows2_length : ∀ v : List α, (windows2 v).length = v.length - 1
  | [] => by simp [windows2]
  | [_] => by simp [windows2]
  | a :: b :: r => by
      simp only [windows2, List.length_cons, windows2_length (b :: r)]
      omega

/-- C8: when the requested rate is an exact integer multiple
`s = target / native` of the native rate (upsampling, `native < target`),
`streams_with_sample_rate` emits, for each stream and each consecutive
pair `(a, b)` of native samples, the `s` points `a + i * (b - a) / s` for
`i < s`; each output stream has length `(len - 1) * s`; and concretely
the stream `[0, 1/5, 4/5]` at native rate 5 resampled to 10 yields
`[0, 1/10, 1/5, 1/2]`. -/
theorem C8_upsampling (f : GrapeFile ℚ) (target : Nat)
    (hdvd : f.header.sample_rate ∣ target) (hlt : f.header.sample_rate < target) :
    (f.streams_with_sample_rate target =
      attach_tags f.header.tags (f.get_raw_streams.map (fun v =>
        (windows2 v).flatMap (fun w =>
          (List.range (target / f.header.sample_rate)).map
            (fun (i : Nat) => w.1 + (i : ℚ) * (w.2 - w.1) /
              ((target / f.header.sample_rate : Nat) : ℚ)))))) ∧
    (∀ v ∈ f.get_raw_streams,
      ((windows2 v).flatMap (fun w =>
        (List.range (target / f.header.sample_rate)).map
          (fun (i : Nat) => w.1 + (i : ℚ) * (w.2 - w.1) /
            ((target / f.header.sample_rate : Nat) : ℚ)))).length =
      (v.length - 1) * (target / f.header.sample_rate)) ∧
    GrapeFile.streams_with_sample_rate ⟨⟨1, 5, [.Yaw]⟩, [0, 1/5, 4/5]⟩ 10 =
      [(.Yaw, [0, 1/10, 1/5, 1/2])] := by
  refine ⟨?_, ?_, ?_⟩
  · rw [GrapeFile.streams_with_sample_rate, if_neg (by omega), if_neg (by omega),
      GrapeFile.streams_interpolated]
    dsimp only
    simp only [mul_div_assoc]
  · intro v _
    rw [flatMap_length_fixed _ (target / f.header.sample_rate) (by simp),
      windows2_length]
  · norm_num [GrapeFile.streams_with_sample_rate, GrapeFile.streams_interpolated,
      GrapeFile.get_raw_streams, stepBy, attach_tags, windows2, List.enum,
      List.enumFrom, List.range_succ]

/-- C8 witness: the theorem applied to the concrete stream
`[0, 1/5, 4/5]` at native rate 5, requested rate 10. -/
theorem C8_upsampling_witness :
    (5 ∣ 10) ∧ 5 < 10 ∧
    GrapeFile.streams_with_sample_rate ⟨⟨1, 5, [.Yaw]⟩, [0, 1/5, 4/5]⟩ 10 =
      [(.Yaw, [0, 1/10, 1/5, 1/2])] :=
  ⟨by decide, by decide,
    (C8_upsampling ⟨⟨1, 5, [.Yaw]⟩, [0, 1/5, 4/5]⟩ 10 (by decide) (by decide)).2.2⟩

/-! ## Concrete evaluations of the models against the repository's unit tests -/

example :
    UUDFEvent.from_str
      (("+UUDF:CCF9578E0D8A,-42,20,0,-43,37,\"CCF9578E0D89\",\"\",15869,23").toList) =
    .ok { tag_id := 0xCCF9578E0D8A, rssi := -42, angle_1 := 20, angle_2 := 0,
          reserved := -43, channel := 37, anchor_id := 0xCCF9578E0D89,
          user_defined := [], timestamp := 15869, sequence := 23 } := by
  decide

example :
    HardwareEvent.from_str
      (("+UUDFP:6C3DEBAFAEE4,19FF1500000050F80C0065000900052A0D001F000000D0030000").toList) =
    .ok (.UUDFPEvent { tag_id := 0x6C3DEBAFAEE4 }) := by
  decide

example : HardwareEvent.from_str (("+UUDF:ABC,-42,20").toList) = .panic := by
  decide

example :
    GrapeFile.from_file
      (GrapeFile.to_file ⟨⟨2, 1000, [.X, .Y]⟩, [5, 7, 9, 4294967295]⟩) =
    .ok ⟨⟨2, 1000, [.X, .Y]⟩, [5, 7, 9, 4294967295]⟩ := by decide

example :
    GrapeFile.streams_with_sample_rate ⟨⟨1, 5, [.Yaw]⟩, [0, 1/5, 4/5]⟩ 10 =
    [(.Yaw, [0, 1/10, 1/5, 1/2])] := by
  norm_num [GrapeFile.streams_with_sample_rate, GrapeFile.streams_interpolated,
    GrapeFile.get_raw_streams, stepBy, attach_tags, windows2, List.enum,
    List.enumFrom, List.range_succ]

example :
    GrapeFile.streams_with_sample_rate ⟨⟨2, 1000, [.X, .Y]⟩, [1, 2, 1, 2, 1, 2, 1, 2]⟩ 500 =
    [(.X, [1, 1]), (.Y, [2, 2])] := by
  norm_num [GrapeFile.streams_with_sample_rate, GrapeFile.streams_quantized,
    GrapeFile.get_raw_streams, stepBy, attach_tags, chunksK, chunksAux, List.enum,
    List.enumFrom, List.range_succ, Function.comp]

example :
    ((GrapeFileBuilder.new.add_stream [1, 2] .X).add_stream [3] .Y).build =
    (.err .UnequalSampleBufferLengths : FResult (GrapeFile ℚ)) := by
  decide

example :
    (GrapeFileBuilder.new : GrapeFileBuilder ℚ).build = .ok ⟨⟨0, 1000, []⟩, []⟩ := by
  decide


/-- C3: for every `GrapeFile` produced by the builder — by
`build_truncate`, `build_extend`, or a successful `build` — reading back
the bytes written by `to_file` yields an equal `GrapeFile`.  The
hypothesis states that the stream payloads are 32-bit words, which is
what the `f32` bit patterns of the source always are. -/
theorem C3_round_trip (b : GrapeFileBuilder Nat)
    (hb : ∀ p ∈ b.streams, ∀ x ∈ p.2, x < 2 ^ 32) :
    GrapeFile.from_file (GrapeFile.to_file b.build_truncate) = .ok b.build_truncate ∧
    GrapeFile.from_file (GrapeFile.to_file b.build_extend) = .ok b.build_extend ∧
    ∀ f, b.build = .ok f → GrapeFile.from_file (GrapeFile.to_file f) = .ok f := by
  refine ⟨from_file_to_file _ (build_truncate_samples_bound b hb),
    from_file_to_file _ (build_extend_samples_bound b hb), ?_⟩
  intro f hok
  unfold GrapeFileBuilder.build at hok
  dsimp only at hok
  split at hok
  · injection hok with h
    subst h
    exact from_file_to_file _ (build_truncate_samples_bound b hb)
  · exact absurd hok (by simp)

/-- C3 witness: a concrete two-stream builder round-trips through all
three build paths. -/
theorem C3_round_trip_witness :
    (∀ p ∈ ([(GrapeTag.X, [1, 2]), (GrapeTag.Y, [3, 4])] :
        List (GrapeTag × List Nat)), ∀ x ∈ p.2, x < 2 ^ 32) ∧
    GrapeFile.from_file (GrapeFile.to_file
        (⟨1000, [(GrapeTag.X, [1, 2]), (GrapeTag.Y, [3, 4])]⟩ :
          GrapeFileBuilder Nat).build_truncate) =
      .ok (⟨1000, [(GrapeTag.X, [1, 2]), (GrapeTag.Y, [3, 4])]⟩ :
          GrapeFileBuilder Nat).build_truncate ∧
    GrapeFile.from_file (GrapeFile.to_file
        (⟨1000, [(GrapeTag.X, [1, 2]), (GrapeTag.Y, [3, 4])]⟩ :
          GrapeFileBuilder Nat).build_extend) =
      .ok (⟨1000, [(GrapeTag.X, [1, 2]), (GrapeTag.Y, [3, 4])]⟩ :
          GrapeFileBuilder Nat).build_extend :=
  ⟨by decide,
    (C3_round_trip ⟨1000, [(GrapeTag.X, [1, 2]), (GrapeTag.Y, [3, 4])]⟩
      (by decide)).1,
    (C3_round_trip ⟨1000, [(GrapeTag.X, [1, 2]), (GrapeTag.Y, [3, 4])]⟩
      (by decide)).2.1⟩

end CyberGrape
